import Mathlib

/-!
Verification of the JingleBang decision core against its specification.

The definitions below are a shallow embedding of the Python sources:
  * `src/model.py`            — data model (positions, bombs, units, commands)
  * `src/services/danger.py`  — `blast_cross`, `build_danger`
  * `src/strategies/SafeBombStrategy.py`
                              — `_safe_to_stay`, `_min_explosion_map`,
                                `_time_bfs_first`, `_reconstruct`
  * `src/app/engine.py`       — `DecisionEngine.decide`, `_validate_and_clip`
  * `src/strategies/random_walk.py` — `RandomWalkStrategy.decide_for_unit`

Conventions: Python `int` is `ℤ` (grid coordinates, times in ticks);
nonnegative counts (`bomb_range`, `max_path`, `bombs_available`) are `ℕ`;
Python `float` timers are modelled as `ℚ` (only order comparisons are used);
Python `set` is `Finset`, Python `list` is `List`; fallible operations
return `Option`.  Loops whose termination is not structural take an explicit
fuel argument; the fuel chosen in the wrappers is proved sufficient, and a
distinguished `stuck` result stands for the (unreachable) exhaustion case.
-/

namespace JingleBang

/-- Grid position, `model.Pos = tuple[int, int]`. -/
abbrev Pos := ℤ × ℤ

/-- From `services/nav.py` and `SafeBombStrategy.py`: the four cardinal
neighbours of a cell, in source order `[(x+1,y), (x-1,y), (x,y+1), (x,y-1)]`. -/
def neighbors4 (p : Pos) : List Pos :=
  [(p.1 + 1, p.2), (p.1 - 1, p.2), (p.1, p.2 + 1), (p.1, p.2 - 1)]

/-- From `services/nav.py` / `SafeBombStrategy.py`: bounds check
`0 <= x < w and 0 <= y < h`. -/
def inside (p : Pos) (w h : ℤ) : Bool :=
  Decidable.decide (0 ≤ p.1 ∧ p.1 < w ∧ 0 ≤ p.2 ∧ p.2 < h)

/-- Manhattan distance `abs(a[0]-b[0]) + abs(a[1]-b[1])` as a natural number. -/
def manhattan (a b : Pos) : ℕ :=
  (a.1 - b.1).natAbs + (a.2 - b.2).natAbs

/-- The four blast-ray directions of `blast_cross`, in source order. -/
def dirs : List Pos := [(1, 0), (-1, 0), (0, 1), (0, -1)]

/-- The cell reached from `pos` after `i` steps in direction `d`:
`(x + dx*i, y + dy*i)`. -/
def rayCell (pos : Pos) (d : Pos) (i : ℕ) : Pos :=
  (pos.1 + d.1 * (i : ℤ), pos.2 + d.2 * (i : ℤ))

/-- One ray of `services/danger.py::blast_cross`: starting at step index `i`
with `r` steps remaining, visit `pos + d*i`, `pos + d*(i+1)`, …, adding each
visited cell and stopping (inclusively) at the first wall/obstacle/bomb. -/
def blastRay (pos : Pos) (d : Pos) (walls obstacles bombs : Finset Pos) :
    ℕ → ℕ → List Pos
  | _, 0 => []
  | i, r + 1 =>
    let p := rayCell pos d i
    if p ∈ walls ∨ p ∈ obstacles ∨ p ∈ bombs then [p]
    else p :: blastRay pos d walls obstacles bombs (i + 1) r

/-- `services/danger.py::blast_cross(pos, bomb_range, walls, obstacles, bombs)`:
the origin plus the four cardinal rays, each walked from step 1 up to
`bomb_range` and stopped inclusively at the first wall/obstacle/bomb. -/
def blast_cross (pos : Pos) (bomb_range : ℕ)
    (walls obstacles bombs : Finset Pos) : Finset Pos :=
  dirs.foldl
    (fun out d => out ∪ (blastRay pos d walls obstacles bombs 1 bomb_range).toFinset)
    {pos}

/-- A cell that stops a blast ray: wall, obstacle, or (stopper) bomb. -/
def isStopper (walls obstacles bombs : Finset Pos) (p : Pos) : Prop :=
  p ∈ walls ∨ p ∈ obstacles ∨ p ∈ bombs

instance (walls obstacles bombs : Finset Pos) (p : Pos) :
    Decidable (isStopper walls obstacles bombs p) := by
  unfold isStopper; infer_instance

lemma dirs_cases {d : Pos} (hd : d ∈ dirs) :
    d = ((1 : ℤ), (0 : ℤ)) ∨ d = (-1, 0) ∨ d = (0, 1) ∨ d = (0, -1) := by
  simpa [dirs] using hd

lemma rayCell_inj (pos : Pos) {d : Pos} (hd : d ∈ dirs) {i j : ℕ} :
    rayCell pos d i = rayCell pos d j ↔ i = j := by
  rcases dirs_cases hd with h | h | h | h <;> subst h <;>
    simp [rayCell, Prod.ext_iff] <;> omega

lemma rayCell_cross_ne (pos : Pos) {d e : Pos} (hd : d ∈ dirs) (he : e ∈ dirs)
    (hne : d ≠ e) {i j : ℕ} (hi : 1 ≤ i) (hj : 1 ≤ j) :
    rayCell pos d i ≠ rayCell pos e j := by
  rcases dirs_cases hd with h | h | h | h <;>
    rcases dirs_cases he with h2 | h2 | h2 | h2 <;> subst h <;> subst h2 <;>
      first
        | exact absurd rfl hne
        | (simp only [rayCell, ne_eq, Prod.ext_iff, not_and]; intro hx hy; omega)

lemma rayCell_ne_origin (pos : Pos) {d : Pos} (hd : d ∈ dirs) {i : ℕ}
    (hi : 1 ≤ i) : rayCell pos d i ≠ pos := by
  rcases dirs_cases hd with h | h | h | h <;> subst h <;>
    (simp only [rayCell, ne_eq, Prod.ext_iff, not_and]; intro hx; omega)

lemma mem_blastRay_shape {q pos : Pos} {d : Pos} {W O B : Finset Pos} :
    ∀ r i, q ∈ blastRay pos d W O B i r → ∃ k, i ≤ k ∧ k < i + r ∧ q = rayCell pos d k := by
  intro r
  induction r with
  | zero => intro i h; simp [blastRay] at h
  | succ r ih =>
    intro i h
    simp only [blastRay] at h
    split at h
    · simp at h; exact ⟨i, le_refl i, by omega, h⟩
    · rcases List.mem_cons.mp h with h | h
      · exact ⟨i, le_refl i, by omega, h⟩
      · obtain ⟨k, hk1, hk2, hk3⟩ := ih (i + 1) h
        exact ⟨k, by omega, by omega, hk3⟩

lemma mem_blastRay_iff (pos : Pos) {d : Pos} (W O B : Finset Pos) (hd : d ∈ dirs) :
    ∀ r i j : ℕ,
      (rayCell pos d j ∈ blastRay pos d W O B i r ↔
        i ≤ j ∧ j < i + r ∧
          ∀ k, i ≤ k → k < j → ¬ isStopper W O B (rayCell pos d k)) := by
  intro r
  induction r with
  | zero =>
    intro i j
    simp only [blastRay, List.not_mem_nil, false_iff, not_and]
    intro h1 h2; omega
  | succ r ih =>
    intro i j
    simp only [blastRay]
    split
    · rename_i hstop
      simp only [List.mem_singleton, rayCell_inj pos hd]
      constructor
      · rintro rfl
        exact ⟨le_refl j, by omega, fun k hk1 hk2 => by omega⟩
      · rintro ⟨h1, h2, h3⟩
        by_contra hne
        exact h3 i (le_refl i) (by omega) (by simpa [isStopper] using hstop)
    · rename_i hstop
      rw [List.mem_cons]
      rw [List.mem_singleton.symm.trans (List.mem_singleton.trans (rayCell_inj pos hd))]
      rw [ih (i + 1) j]
      constructor
      · rintro (rfl | ⟨h1, h2, h3⟩)
        · exact ⟨le_refl j, by omega, fun k hk1 hk2 => by omega⟩
        · refine ⟨by omega, by omega, fun k hk1 hk2 => ?_⟩
          rcases Nat.eq_or_lt_of_le hk1 with rfl | hk
          · simpa [isStopper] using hstop
          · exact h3 k (by omega) hk2
      · rintro ⟨h1, h2, h3⟩
        rcases Nat.eq_or_lt_of_le h1 with rfl | hij
        · exact Or.inl rfl
        · exact Or.inr ⟨by omega, by omega, fun k hk1 hk2 => h3 k (by omega) hk2⟩

lemma mem_blast_cross_iff (q pos : Pos) (bomb_range : ℕ) (W O B : Finset Pos) :
    q ∈ blast_cross pos bomb_range W O B ↔
      q = pos ∨ ∃ d ∈ dirs, q ∈ blastRay pos d W O B 1 bomb_range := by
  simp only [blast_cross, dirs, List.foldl_cons, List.foldl_nil, Finset.mem_union,
    List.mem_toFinset, Finset.mem_singleton, List.mem_cons, List.not_mem_nil]
  constructor
  · rintro ((((h | h) | h) | h) | h)
    · exact Or.inl h
    · exact Or.inr ⟨(1, 0), by simp, h⟩
    · exact Or.inr ⟨(-1, 0), by simp, h⟩
    · exact Or.inr ⟨(0, 1), by simp, h⟩
    · exact Or.inr ⟨(0, -1), by simp, h⟩
  · rintro (h | ⟨d, hd, h⟩)
    · exact Or.inl (Or.inl (Or.inl (Or.inl h)))
    · rcases hd with rfl | rfl | rfl | rfl | hfalse
      · exact Or.inl (Or.inl (Or.inl (Or.inr h)))
      · exact Or.inl (Or.inl (Or.inr h))
      · exact Or.inl (Or.inr h)
      · exact Or.inr h
      · simp at hfalse

/-- Claim C2: `blast_cross` always contains the bomb's own cell, and along each
of the four cardinal rays it contains the cell `j` steps out (for `j ≥ 1`)
exactly when `j` is within range and no strictly earlier cell of that ray is a
wall, an obstacle, or a stopper bomb — so the first stopper cell is included
and no cell of the ray beyond it is. -/
theorem blast_cross_containment (pos : Pos) (bomb_range : ℕ)
    (W O B : Finset Pos) :
    pos ∈ blast_cross pos bomb_range W O B ∧
    ∀ d ∈ dirs, ∀ j : ℕ, 1 ≤ j →
      (rayCell pos d j ∈ blast_cross pos bomb_range W O B ↔
        j ≤ bomb_range ∧
          ∀ k, 1 ≤ k → k < j → ¬ isStopper W O B (rayCell pos d k)) := by
  constructor
  · exact (mem_blast_cross_iff pos pos bomb_range W O B).mpr (Or.inl rfl)
  · intro d hd j hj
    rw [mem_blast_cross_iff]
    constructor
    · rintro (h | ⟨e, he, h⟩)
      · exact absurd h (rayCell_ne_origin pos hd hj)
      · by_cases hde : d = e
        · subst hde
          obtain ⟨h1, h2, h3⟩ := (mem_blastRay_iff pos W O B hd bomb_range 1 j).mp h
          exact ⟨by omega, h3⟩
        · obtain ⟨k, hk1, _, hk3⟩ := mem_blastRay_shape bomb_range 1 h
          exact absurd hk3.symm (rayCell_cross_ne pos he hd (fun h => hde h.symm) hk1 hj)
    · rintro ⟨h1, h2⟩
      exact Or.inr ⟨d, hd, (mem_blastRay_iff pos W O B hd bomb_range 1 j).mpr
        ⟨hj, by omega, h2⟩⟩

/-- Witness for C2, the spec's own example scenario: bomb at `(5,5)`, range 2,
wall at `(5,7)`: the wall cell `(5,7)` is in the footprint but `(5,8)`, beyond
the wall, is not. -/
theorem blast_cross_containment_witness :
    ((5, 7) : Pos) ∈ blast_cross (5, 5) 2 ({((5 : ℤ), (7 : ℤ))} : Finset Pos) ∅ ∅ ∧
    ((5, 8) : Pos) ∉ blast_cross (5, 5) 2 ({((5 : ℤ), (7 : ℤ))} : Finset Pos) ∅ ∅ := by
  have h := blast_cross_containment (5, 5) 2 ({((5 : ℤ), (7 : ℤ))} : Finset Pos) ∅ ∅
  constructor
  · have h2 := (h.2 (0, 1) (by simp [dirs]) 2 (by norm_num))
    have : rayCell (5, 5) (0, 1) 2 = ((5 : ℤ), (7 : ℤ)) := by
      simp [rayCell]
    rw [this] at h2
    refine h2.mpr ⟨by norm_num, fun k hk1 hk2 => ?_⟩
    have : k = 1 := by omega
    subst this
    simp [isStopper, rayCell]
  · have h3 := (h.2 (0, 1) (by simp [dirs]) 3 (by norm_num))
    have hc : rayCell (5, 5) (0, 1) 3 = ((5 : ℤ), (8 : ℤ)) := by
      simp [rayCell]
    rw [hc] at h3
    intro hmem
    have := (h3.mp hmem).1
    omega

/-- An armed-bomb record as it appears in the engine's `bombs` dict:
position, range, timer (`pos -> (range, timer_sec)`). -/
abbrev BombEntry := Pos × ℕ × ℚ

/-- `services/danger.py::build_danger(bombs, timer_threshold, walls, obstacles)`:
union of the blast footprints of the bombs whose timer is at most
`timer_threshold`, every bomb position acting as a stopper
(`stoppers = set(bombs.keys())`). The dict is modelled as the association
list of its entries. -/
def build_danger (bombs : List BombEntry) (timer_threshold : ℚ)
    (walls obstacles : Finset Pos) : Finset Pos :=
  let stoppers := (bombs.map (·.1)).toFinset
  bombs.foldl
    (fun danger e =>
      if e.2.2 ≤ timer_threshold then
        danger ∪ blast_cross e.1 e.2.1 walls obstacles stoppers
      else danger)
    ∅

lemma mem_build_danger_foldl (thr : ℚ) (W O stoppers : Finset Pos) (q : Pos) :
    ∀ (L : List BombEntry) (acc : Finset Pos),
      (q ∈ L.foldl
        (fun danger e =>
          if e.2.2 ≤ thr then danger ∪ blast_cross e.1 e.2.1 W O stoppers
          else danger) acc
        ↔ q ∈ acc ∨ ∃ e ∈ L, e.2.2 ≤ thr ∧ q ∈ blast_cross e.1 e.2.1 W O stoppers) := by
  intro L
  induction L with
  | nil => intro acc; simp
  | cons e L ih =>
    intro acc
    rw [List.foldl_cons, ih]
    by_cases he : e.2.2 ≤ thr
    · simp only [if_pos he, Finset.mem_union, List.mem_cons]
      constructor
      · rintro ((h | h) | ⟨e2, h1, h2, h3⟩)
        · exact Or.inl h
        · exact Or.inr ⟨e, Or.inl rfl, he, h⟩
        · exact Or.inr ⟨e2, Or.inr h1, h2, h3⟩
      · rintro (h | ⟨e2, (rfl | h1), h2, h3⟩)
        · exact Or.inl (Or.inl h)
        · exact Or.inl (Or.inr h3)
        · exact Or.inr ⟨e2, h1, h2, h3⟩
    · simp only [if_neg he, List.mem_cons]
      constructor
      · rintro (h | ⟨e2, h1, h2, h3⟩)
        · exact Or.inl h
        · exact Or.inr ⟨e2, Or.inr h1, h2, h3⟩
      · rintro (h | ⟨e2, (rfl | h1), h2, h3⟩)
        · exact Or.inl h
        · exact absurd h2 he
        · exact Or.inr ⟨e2, h1, h2, h3⟩

/-- Claim C7: the danger region of `build_danger` is exactly the union of the
`blast_cross` footprints of the bombs whose timer is at most the threshold,
where every bomb position (including those above the threshold) acts as a
stopper; bombs above the threshold contribute no cells of their own. -/
theorem build_danger_exact (bombs : List BombEntry) (timer_threshold : ℚ)
    (walls obstacles : Finset Pos) (q : Pos) :
    q ∈ build_danger bombs timer_threshold walls obstacles ↔
      ∃ e ∈ bombs, e.2.2 ≤ timer_threshold ∧
        q ∈ blast_cross e.1 e.2.1 walls obstacles ((bombs.map (·.1)).toFinset) := by
  unfold build_danger
  rw [mem_build_danger_foldl]
  simp

/-- Witness for C7 at a concrete input: a bomb at `(0,0)` with timer `3`
(above the `5/2` threshold) contributes none of its own cells — `(-1,0)` is
not dangerous — yet still stops (and is covered by) the ray of the bomb at
`(2,0)` with range 2 and timer 1, so `(0,0)` is dangerous. -/
theorem build_danger_exact_witness :
    (((0, 0) : Pos) ∈
      build_danger [((0, 0), 1, 3), ((2, 0), 2, 1)] (5 / 2) ∅ ∅) ∧
    (((-1, 0) : Pos) ∉
      build_danger [((0, 0), 1, 3), ((2, 0), 2, 1)] (5 / 2) ∅ ∅) := by
  constructor
  · exact (build_danger_exact [((0, 0), 1, 3), ((2, 0), 2, 1)] (5 / 2) ∅ ∅ (0, 0)).mpr
      ⟨((2, 0), 2, 1), by simp, by norm_num, by decide⟩
  · intro h
    obtain ⟨e, he, ht, hb⟩ :=
      (build_danger_exact [((0, 0), 1, 3), ((2, 0), 2, 1)] (5 / 2) ∅ ∅ (-1, 0)).mp h
    rcases List.mem_cons.mp he with rfl | he2
    · norm_num at ht
    · rcases List.mem_cons.mp he2 with rfl | he3
      · exact absurd hb (by decide)
      · simp at he3

/-- Modelled from the spec: `danger_from_bomb` is imported from
`services.danger` by `app/engine.py`, `strategies/SafeBombStrategy.py` and
`strategies/farm_obstacles.py` but is not defined anywhere under `src/`; only
its callers exist. Spec §4.1 describes the footprint primitive
`blast_footprint(origin, range, stoppers)`: it "always includes `origin`; for
each of the 4 cardinal directions, walks outward up to `range` cells, adding
each visited cell to the result, and stops the ray (without including cells
beyond) as soon as it reaches a wall, an obstacle, or a cell in `stoppers` —
the blocking cell itself is included, cells past it are not". That is exactly
`blast_cross` with the explicit wall/obstacle/stopper sets; the spec attaches
no behaviour to the map bounds, so the `map_size` argument that the callers
pass is accepted but unused. -/
def danger_from_bomb (pos : Pos) (bomb_range : ℕ)
    (walls obstacles bombs_as_stoppers : Finset Pos) (_map_size : ℤ × ℤ) :
    Finset Pos :=
  blast_cross pos bomb_range walls obstacles bombs_as_stoppers

/-- `SafeBombStrategy._min_explosion_map(ctx, walls, obstacles, map_size)`:
per-cell minimum, over all bombs of the snapshot whose footprint covers the
cell, of that bomb's timer (`out[cell] = min(out.get(cell, inf), timer)`),
with all bomb positions as mutual stoppers. The bombs dict is modelled as the
association list of its entries and the resulting dict as a
`Pos → Option ℚ` lookup. -/
def min_explosion_map (bombs : List BombEntry) (walls obstacles : Finset Pos)
    (map_size : ℤ × ℤ) : Pos → Option ℚ :=
  let stoppers := (bombs.map (·.1)).toFinset
  bombs.foldl
    (fun out e =>
      let blast := danger_from_bomb e.1 e.2.1 walls obstacles stoppers map_size
      fun cell =>
        if cell ∈ blast then
          some (match out cell with
            | none => e.2.2
            | some v => min v e.2.2)
        else out cell)
    (fun _ => none)

/-- Merge of an already-recorded optional minimum with a freshly computed one
(`min(out.get(cell, inf), t)` semantics). -/
def optMin : Option ℚ → Option ℚ → Option ℚ
  | none, b => b
  | some a, none => some a
  | some a, some b => some (min a b)

lemma optMin_none_right (a : Option ℚ) : optMin a none = a := by
  cases a <;> rfl

lemma optMin_assoc (a b c : Option ℚ) :
    optMin (optMin a b) c = optMin a (optMin b c) := by
  cases a <;> cases b <;> cases c <;> simp [optMin, min_assoc]

lemma optMin_some_min? (x : ℚ) (l : List ℚ) :
    optMin (some x) l.min? = (x :: l).min? := by
  rw [List.min?_cons]
  cases hl : l.min? <;> simp [optMin, Option.elim]

lemma min_explosion_foldl (W O stoppers : Finset Pos) (msz : ℤ × ℤ) :
    ∀ (L : List BombEntry) (out : Pos → Option ℚ) (cell : Pos),
      (L.foldl
        (fun out e =>
          let blast := danger_from_bomb e.1 e.2.1 W O stoppers msz
          fun cell =>
            if cell ∈ blast then
              some (match out cell with
                | none => e.2.2
                | some v => min v e.2.2)
            else out cell)
        out) cell
      = optMin (out cell)
          (((L.filter
              (fun e => cell ∈ danger_from_bomb e.1 e.2.1 W O stoppers msz)).map
            (fun e => e.2.2)).min?) := by
  intro L
  induction L with
  | nil => intro out cell; simp [optMin_none_right]
  | cons e L ih =>
    intro out cell
    rw [List.foldl_cons, ih]
    by_cases hc : cell ∈ danger_from_bomb e.1 e.2.1 W O stoppers msz
    · rw [List.filter_cons_of_pos (by simpa using hc)]
      have hout : (if cell ∈ danger_from_bomb e.1 e.2.1 W O stoppers msz then
          some (match out cell with
            | none => e.2.2
            | some v => min v e.2.2)
          else out cell) = optMin (out cell) (some e.2.2) := by
        rw [if_pos hc]
        cases out cell <;> rfl
      rw [List.map_cons, ← optMin_some_min?, hout, optMin_assoc]
    · rw [List.filter_cons_of_neg (by simpa using hc), if_neg hc]

/-- Claim C3: in the per-cell earliest-explosion map of
`SafeBombStrategy._min_explosion_map`, a cell covered by at least one bomb's
footprint is mapped to the minimum timer among all covering bombs (here: the
`List.min?` of the covering bombs' timers, which is `none` exactly when no
bomb covers the cell, i.e. the cell is absent from the map). -/
theorem min_explosion_map_minimal (bombs : List BombEntry)
    (walls obstacles : Finset Pos) (map_size : ℤ × ℤ) (cell : Pos) :
    min_explosion_map bombs walls obstacles map_size cell
      = ((bombs.filter
            (fun e => cell ∈ danger_from_bomb e.1 e.2.1 walls obstacles
              ((bombs.map (·.1)).toFinset) map_size)).map
          (fun e => e.2.2)).min? := by
  unfold min_explosion_map
  rw [min_explosion_foldl]
  rfl

/-- Witness for C3 at a concrete input: two bombs with timers `4` and `2`
both covering `(1,0)`; the map records the minimum `2` there, and a cell
covered by no bomb is absent. -/
theorem min_explosion_map_minimal_witness :
    min_explosion_map [((0, 0), 1, 4), ((2, 0), 1, 2)] ∅ ∅ (5, 5) (1, 0)
        = some 2 ∧
    min_explosion_map [((0, 0), 1, 4), ((2, 0), 1, 2)] ∅ ∅ (5, 5) (4, 4)
        = none := by
  constructor
  · rw [min_explosion_map_minimal]
    decide
  · rw [min_explosion_map_minimal]
    decide

/-! ## Time-aware BFS (`SafeBombStrategy._time_bfs_first`) -/

/-- A search state of the time-aware BFS: (position, absolute tick). -/
abbrev St := Pos × ℤ

/-- The fixed data of one `_time_bfs_first` invocation (the arguments other
than `start`/`start_time`, plus `self.cfg.safe_margin`). -/
structure SearchEnv where
  w : ℤ
  h : ℤ
  blocked : Finset Pos
  min_explosion : Pos → Option ℚ
  safe_margin : ℚ
  start_time : ℤ
  max_time : ℕ
  goal_pred : Pos → ℤ → Bool

/-- `SafeBombStrategy._safe_to_stay(pos, leave_time, min_explosion)`: `True`
when the cell has no scheduled detonation, else `t > leave_time + margin`. -/
def safe_to_stay (min_explosion : Pos → Option ℚ) (safe_margin : ℚ)
    (pos : Pos) (leave_time : ℚ) : Bool :=
  match min_explosion pos with
  | none => true
  | some t => Decidable.decide (leave_time + safe_margin < t)

/-- The BFS's inner `ok(p, t)`: `_safe_to_stay(p, leave_time=float(t + 1))`. -/
def ok (E : SearchEnv) (p : Pos) (t : ℤ) : Bool :=
  safe_to_stay E.min_explosion E.safe_margin p ((t + 1 : ℤ) : ℚ)

/-- One surviving transition of the search: exactly the conditions under which
the loop body enqueues `(nx, nt)` from `(cur, t)` (4-neighbour, next tick,
within horizon, inside the grid, unblocked, survivable). -/
def Step (E : SearchEnv) (u s : St) : Prop :=
  s.1 ∈ neighbors4 u.1 ∧ s.2 = u.2 + 1 ∧
    s.2 ≤ E.start_time + (E.max_time : ℤ) ∧
    inside s.1 E.w E.h = true ∧ s.1 ∉ E.blocked ∧ ok E s.1 s.2 = true

/-- A goal state: reached strictly after `start_time` and satisfying the
caller's predicate (`t > start_time and goal_pred(cur, t)`). -/
def isGoal (E : SearchEnv) (s : St) : Prop :=
  E.start_time < s.2 ∧ E.goal_pred s.1 s.2 = true

instance (E : SearchEnv) (s : St) : Decidable (isGoal E s) := by
  unfold isGoal; infer_instance

/-- States reachable from `s0` through surviving transitions. -/
inductive Reach (E : SearchEnv) (s0 : St) : St → Prop where
  | base : Reach E s0 s0
  | step {u s : St} : Reach E s0 u → Step E u s → Reach E s0 s

/-- Reachability from an arbitrary intermediate state. -/
inductive ReachFrom (E : SearchEnv) : St → St → Prop where
  | base (u : St) : ReachFrom E u u
  | step {u v s : St} : ReachFrom E u v → Step E v s → ReachFrom E u s

/-- `ChainTo E s0 s path`: `path` is the list of positions (in travel order,
excluding the start cell) of a surviving transition chain from `s0` to `s`. -/
inductive ChainTo (E : SearchEnv) (s0 : St) : St → List Pos → Prop where
  | nil : ChainTo E s0 s0 []
  | snoc {u s : St} {path : List Pos} :
      ChainTo E s0 u path → Step E u s → ChainTo E s0 s (path ++ [s.1])

/-- Processing of one neighbour `nx` of the dequeued `(cur, t)`, in the exact
guard order of the source loop body (horizon, `inside`, `blocked`, `ok`,
`seen`); a surviving fresh state is appended to the queue, marked seen, and
given a parent pointer. -/
def expandStep (E : SearchEnv) (cur : Pos) (t : ℤ)
    (acc : List St × Finset St × (St → Option St)) (nx : Pos) :
    List St × Finset St × (St → Option St) :=
  let nt := t + 1
  if E.start_time + (E.max_time : ℤ) < nt then acc
  else if ¬ inside nx E.w E.h then acc
  else if nx ∈ E.blocked then acc
  else if ¬ ok E nx nt then acc
  else if (nx, nt) ∈ acc.2.1 then acc
  else
    (acc.1 ++ [(nx, nt)], insert (nx, nt) acc.2.1,
      fun s => if s = (nx, nt) then some (cur, t) else acc.2.2 s)

/-- The `for nx in neighbors4(cur)` loop of `_time_bfs_first`. -/
def expand (E : SearchEnv) (cur : Pos) (t : ℤ) (q : List St)
    (seen : Finset St) (prev : St → Option St) :
    List St × Finset St × (St → Option St) :=
  (neighbors4 cur).foldl (expandStep E cur t) (q, seen, prev)

/-- `SafeBombStrategy._reconstruct`: walk the parent pointers back from `cur`
until the start state, collecting positions (the source appends then
reverses; accumulating at the front is the same list). The loop has no
native bound, so it takes fuel; `none` stands for the `KeyError` /
non-termination cases, which are proved unreachable. -/
def reconstructAux (prev : St → Option St) (s0 : St) :
    ℕ → St → List Pos → Option (List Pos)
  | 0, cur, acc => if cur = s0 then some acc else none
  | fuel + 1, cur, acc =>
    if cur = s0 then some acc
    else
      match prev cur with
      | none => none
      | some u => reconstructAux prev s0 fuel u (cur.1 :: acc)

/-- Path reconstruction from the end state; the chain shortens the time
difference by one per step, so `(end.2 - s0.2).toNat` fuel is exact. -/
def reconstruct (prev : St → Option St) (endSt s0 : St) : Option (List Pos) :=
  reconstructAux prev s0 (endSt.2 - s0.2).toNat endSt []

/-- Result of the search. `found`/`noPath` are the source's `path`/`None`
returns; `stuck` marks fuel exhaustion or a failed parent-pointer lookup,
neither of which the Python loop guards against — both are proved
unreachable. -/
inductive BfsResult where
  | found : List Pos → BfsResult
  | noPath : BfsResult
  | stuck : BfsResult
deriving DecidableEq

/-- The `while q:` loop of `_time_bfs_first`: pop left; skip states past the
horizon; return the reconstructed path on the first goal state popped after
`start_time`; otherwise expand the neighbours. -/
def bfsAux (E : SearchEnv) (s0 : St) :
    ℕ → List St → Finset St → (St → Option St) → BfsResult
  | _, [], _, _ => BfsResult.noPath
  | 0, _ :: _, _, _ => BfsResult.stuck
  | fuel + 1, (cur, t) :: rest, seen, prev =>
    if E.start_time + (E.max_time : ℤ) < t then
      bfsAux E s0 fuel rest seen prev
    else if E.start_time < t ∧ E.goal_pred cur t = true then
      match reconstruct prev (cur, t) s0 with
      | some path => BfsResult.found path
      | none => BfsResult.stuck
    else
      let r := expand E cur t rest seen prev
      bfsAux E s0 fuel r.1 r.2.1 r.2.2

/-- Fuel for the BFS loop: one more than the number of non-start states the
search can ever see (`w*h` grid cells at each of `max_time` ticks). -/
def bfsFuel (E : SearchEnv) : ℕ := E.w.toNat * E.h.toNat * E.max_time + 1

/-- The environment record assembled from `_time_bfs_first`'s arguments. -/
def searchEnv (start_time : ℤ) (blocked : Finset Pos)
    (min_explosion : Pos → Option ℚ) (safe_margin : ℚ) (w h : ℤ)
    (max_time : ℕ) (goal_pred : Pos → ℤ → Bool) : SearchEnv :=
  ⟨w, h, blocked, min_explosion, safe_margin, start_time, max_time, goal_pred⟩

/-- `SafeBombStrategy._time_bfs_first(start, start_time, blocked,
min_explosion, w, h, max_time, goal_pred)` (with `safe_margin` from the
strategy config): BFS over (position, tick) states from
`(start, start_time)`. -/
def time_bfs_first (start : Pos) (start_time : ℤ) (blocked : Finset Pos)
    (min_explosion : Pos → Option ℚ) (safe_margin : ℚ) (w h : ℤ)
    (max_time : ℕ) (goal_pred : Pos → ℤ → Bool) : BfsResult :=
  let E : SearchEnv :=
    searchEnv start_time blocked min_explosion safe_margin w h max_time
      goal_pred
  bfsAux E (start, start_time) (bfsFuel E) [(start, start_time)]
    {(start, start_time)} (fun _ => none)

/-- The finite universe the search's `seen` set lives in: the start state
plus every in-grid position at ticks `start_time+1 … start_time+max_time`. -/
def allowedF (E : SearchEnv) (s0 : St) : Finset St :=
  insert s0 ((Finset.Ico (0 : ℤ) E.w ×ˢ Finset.Ico (0 : ℤ) E.h) ×ˢ
    Finset.Ico (E.start_time + 1) (E.start_time + (E.max_time : ℤ) + 1))

lemma mem_allowedF {E : SearchEnv} {s0 s : St} :
    s ∈ allowedF E s0 ↔
      s = s0 ∨ (inside s.1 E.w E.h = true ∧
        E.start_time + 1 ≤ s.2 ∧ s.2 ≤ E.start_time + (E.max_time : ℤ)) := by
  simp only [allowedF, Finset.mem_insert, Finset.mem_product, Finset.mem_Ico,
    inside, decide_eq_true_eq]
  constructor
  · rintro (h | ⟨⟨⟨h1, h2⟩, h3, h4⟩, h5, h6⟩)
    · exact Or.inl h
    · exact Or.inr ⟨⟨h1, h2, h3, h4⟩, h5, by omega⟩
  · rintro (h | ⟨⟨h1, h2, h3, h4⟩, h5, h6⟩)
    · exact Or.inl h
    · exact Or.inr ⟨⟨⟨h1, h2⟩, h3, h4⟩, h5, by omega⟩

lemma card_allowedF_le (E : SearchEnv) (s0 : St) :
    (allowedF E s0).card ≤ bfsFuel E := by
  unfold allowedF bfsFuel
  refine le_trans (Finset.card_insert_le _ _) ?_
  rw [Finset.card_product, Finset.card_product, Int.card_Ico, Int.card_Ico,
    Int.card_Ico]
  have : (E.start_time + (E.max_time : ℤ) + 1 - (E.start_time + 1)).toNat
      = E.max_time := by omega
  rw [this]
  simp only [sub_zero]
  omega

lemma step_time {E : SearchEnv} {u s : St} (h : Step E u s) : s.2 = u.2 + 1 :=
  h.2.1

lemma reachFrom_time_le {E : SearchEnv} {u s : St} (h : ReachFrom E u s) :
    u.2 ≤ s.2 := by
  induction h with
  | base => exact le_refl _
  | step _ hst ih => rw [step_time hst]; omega

lemma reachFrom_step_left {E : SearchEnv} {u v s : St} (h : Step E u v)
    (h2 : ReachFrom E v s) : ReachFrom E u s := by
  induction h2 with
  | base => exact ReachFrom.step (ReachFrom.base u) h
  | step _ hst ih => exact ReachFrom.step ih hst

lemma chainTo_reach {E : SearchEnv} {s0 s : St} {path : List Pos}
    (h : ChainTo E s0 s path) : Reach E s0 s := by
  induction h with
  | nil => exact Reach.base
  | snoc _ hst ih => exact Reach.step ih hst

lemma chainTo_time {E : SearchEnv} {s0 s : St} {path : List Pos}
    (h : ChainTo E s0 s path) : s.2 = s0.2 + path.length := by
  induction h with
  | nil => simp
  | snoc _ hst ih =>
    rename_i u s p
    rw [List.length_append, List.length_singleton, step_time hst, ih]
    push_cast
    ring

lemma chainTo_ne_nil {E : SearchEnv} {s0 s : St} {path : List Pos}
    (h : ChainTo E s0 s path) (hne : s ≠ s0) : path ≠ [] := by
  cases h with
  | nil => exact absurd rfl hne
  | snoc hch hst => simp

/-- Every cell of a chain's path, indexed by arrival order, satisfies the
survivability guard `ok` at its arrival tick `s0.2 + 1 + i` (and the other
transition conditions). -/
lemma chainTo_get_ok {E : SearchEnv} {s0 s : St} {path : List Pos}
    (h : ChainTo E s0 s path) :
    ∀ i (hi : i < path.length),
      ok E (path.get ⟨i, hi⟩) (s0.2 + 1 + (i : ℤ)) = true := by
  induction h with
  | nil => intro i hi; simp at hi
  | snoc hch hst ih =>
    rename_i u s p
    intro i hi
    rcases Nat.lt_or_ge i p.length with hlt | hge
    · rw [List.get_append _ hlt]
      exact ih i hlt
    · have hi2 : i < p.length + 1 := by
        simpa using hi
      have : i = p.length := by omega
      subst this
      have hget : (p ++ [s.1]).get ⟨p.length, hi⟩ = s.1 := by
        simp
      rw [hget]
      have htime : s.2 = s0.2 + 1 + (p.length : ℤ) := by
        rw [step_time hst, chainTo_time hch]; ring
      rw [← htime]
      exact hst.2.2.2.2.2

/-- The loop invariant of `_time_bfs_first`, relating queue, seen set and
parent pointers. `processed` states are the seen states no longer queued. -/
structure BfsInv (E : SearchEnv) (s0 : St) (q : List St) (seen : Finset St)
    (prev : St → Option St) : Prop where
  s0_seen : s0 ∈ seen
  q_seen : ∀ s ∈ q, s ∈ seen
  seen_allowed : seen ⊆ allowedF E s0
  prev_edge : ∀ s u, prev s = some u → u ∈ seen ∧ Step E u s ∧ s ≠ s0
  prev_some : ∀ s ∈ seen, s ≠ s0 → (prev s).isSome = true
  closed : ∀ s ∈ seen, s ∉ q → ∀ s2, Step E s s2 → s2 ∈ seen
  not_goal : ∀ s ∈ seen, s ∉ q → ¬ isGoal E s
  sorted : q.Sorted (fun a b => a.2 ≤ b.2)
  bounded : ∀ a ∈ q, ∀ b ∈ q, a.2 ≤ b.2 + 1
  nodup : q.Nodup

lemma seen_time_bounds {E : SearchEnv} {s0 : St} {q : List St} {seen : Finset St}
    {prev : St → Option St} (hInv : BfsInv E s0 q seen prev)
    (hs0 : s0.2 = E.start_time) {s : St} (hs : s ∈ seen) :
    E.start_time ≤ s.2 ∧ s.2 ≤ E.start_time + (E.max_time : ℤ) := by
  rcases mem_allowedF.mp (hInv.seen_allowed hs) with rfl | ⟨_, h2, h3⟩
  · constructor
    · omega
    · have : (0 : ℤ) ≤ (E.max_time : ℤ) := by positivity
      omega
  · omega

lemma seen_start_time_eq {E : SearchEnv} {s0 : St} {q : List St}
    {seen : Finset St} {prev : St → Option St}
    (hInv : BfsInv E s0 q seen prev) (hs0 : s0.2 = E.start_time) {s : St}
    (hs : s ∈ seen) (ht : s.2 = E.start_time) : s = s0 := by
  rcases mem_allowedF.mp (hInv.seen_allowed hs) with rfl | ⟨_, h2, h3⟩
  · rfl
  · omega

/-- If every reachable state is either already seen or sits beyond some
queued state, the BFS frontier is intact. -/
lemma frontier {E : SearchEnv} {s0 : St} {q : List St} {seen : Finset St}
    {prev : St → Option St} (hInv : BfsInv E s0 q seen prev) :
    ∀ s, Reach E s0 s → s ∈ seen ∨ ∃ u ∈ q, ReachFrom E u s := by
  intro s hr
  induction hr with
  | base => exact Or.inl hInv.s0_seen
  | step hru hst ih =>
    rename_i u s
    rcases ih with hu | ⟨v, hvq, hvf⟩
    · by_cases huq : u ∈ q
      · exact Or.inr ⟨u, huq, ReachFrom.step (ReachFrom.base u) hst⟩
      · exact Or.inl (hInv.closed u hu huq s hst)
    · exact Or.inr ⟨v, hvq, ReachFrom.step hvf hst⟩

/-- Complete characterisation of one `for nx in neighbors4(cur)` pass: the
queue gains a (possibly empty) block of fresh states at tick `t+1`, all of
which are marked seen with parent `(cur, t)`; everything else is untouched;
and afterwards every `Step`-successor of `(cur, t)` is seen. -/
lemma expandFold_spec (E : SearchEnv) (cur : Pos) (t : ℤ) :
    ∀ (ns : List Pos) (q : List St) (seen : Finset St) (prev : St → Option St),
      (∀ nx ∈ ns, nx ∈ neighbors4 cur) →
      ∃ news : List St,
        (ns.foldl (expandStep E cur t) (q, seen, prev)).1 = q ++ news ∧
        (ns.foldl (expandStep E cur t) (q, seen, prev)).2.1
            = seen ∪ news.toFinset ∧
        news.Nodup ∧
        (∀ s ∈ news, s ∉ seen ∧ Step E (cur, t) s ∧ s.2 = t + 1) ∧
        (∀ s ∈ news,
          (ns.foldl (expandStep E cur t) (q, seen, prev)).2.2 s
            = some (cur, t)) ∧
        (∀ s, s ∉ news →
          (ns.foldl (expandStep E cur t) (q, seen, prev)).2.2 s = prev s) ∧
        (∀ s2, Step E (cur, t) s2 → s2.1 ∈ ns →
          s2 ∈ (ns.foldl (expandStep E cur t) (q, seen, prev)).2.1) := by
  intro ns
  induction ns with
  | nil =>
    intro q seen prev hsub
    exact ⟨[], by simp, by simp, List.nodup_nil, by simp, by simp, by simp,
      fun s2 _ h => by simp at h⟩
  | cons nx ns ih =>
    intro q seen prev hsub
    rw [List.foldl_cons]
    by_cases hguards : ¬ (E.start_time + (E.max_time : ℤ) < t + 1) ∧
        inside nx E.w E.h = true ∧ nx ∉ E.blocked ∧ ok E nx (t + 1) = true
    · obtain ⟨hg1, hg2, hg3, hg4⟩ := hguards
      by_cases hseen : (nx, t + 1) ∈ seen
      · have hstep : expandStep E cur t (q, seen, prev) nx = (q, seen, prev) := by
          unfold expandStep
          simp only [if_neg hg1, hg2, not_true_eq_false, if_neg, if_false]
          rw [if_neg (by simpa using hg3), if_neg (by simp [hg4]),
            if_pos (by simpa using hseen)]
        rw [hstep]
        obtain ⟨news, h1, h2, h3, h4, h5, h6, h7⟩ :=
          ih q seen prev (fun a ha => hsub a (List.mem_cons_of_mem nx ha))
        refine ⟨news, h1, h2, h3, h4, h5, h6, fun s2 hstep2 hmem => ?_⟩
        rcases List.mem_cons.mp hmem with heq | hmem2
        · have hs2 : s2 = (nx, t + 1) := by
            rcases s2 with ⟨p2, t2⟩
            simp only at heq
            subst heq
            have := hstep2.2.1
            simp only at this
            rw [this]
          subst hs2
          rw [h2]
          exact Finset.mem_union_left _ hseen
        · exact h7 s2 hstep2 hmem2
      · have hstep : expandStep E cur t (q, seen, prev) nx
            = (q ++ [(nx, t + 1)], insert (nx, t + 1) seen,
              fun s => if s = (nx, t + 1) then some (cur, t) else prev s) := by
          unfold expandStep
          simp only [if_neg hg1]
          rw [if_neg (by simp [hg2]), if_neg (by simpa using hg3),
            if_neg (by simp [hg4]), if_neg (by simpa using hseen)]
        rw [hstep]
        obtain ⟨news, h1, h2, h3, h4, h5, h6, h7⟩ :=
          ih (q ++ [(nx, t + 1)]) (insert (nx, t + 1) seen)
            (fun s => if s = (nx, t + 1) then some (cur, t) else prev s)
            (fun a ha => hsub a (List.mem_cons_of_mem nx ha))
        have hnxnews : (nx, t + 1) ∉ news := by
          intro hmem
          exact (h4 _ hmem).1 (Finset.mem_insert_self _ _)
        refine ⟨(nx, t + 1) :: news, ?_, ?_, ?_, ?_, ?_, ?_, ?_⟩
        · rw [h1, List.append_assoc, List.singleton_append]
        · rw [h2]
          ext s
          simp only [Finset.mem_union, Finset.mem_insert, List.toFinset_cons,
            List.mem_toFinset]
          tauto
        · exact List.nodup_cons.mpr ⟨hnxnews, h3⟩
        · intro s hs
          rcases List.mem_cons.mp hs with rfl | hs2
          · refine ⟨hseen, ⟨hsub nx (List.mem_cons_self nx ns), rfl, by omega,
              hg2, hg3, hg4⟩, rfl⟩
          · obtain ⟨ha, hb, hc⟩ := h4 s hs2
            exact ⟨fun hmem => ha (Finset.mem_insert_of_mem hmem), hb, hc⟩
        · intro s hs
          rcases List.mem_cons.mp hs with rfl | hs2
          · rw [h6 _ hnxnews]
            simp
          · exact h5 s hs2
        · intro s hs
          have hs1 : s ∉ news := fun h => hs (List.mem_cons_of_mem _ h)
          have hs2 : s ≠ (nx, t + 1) := fun h => hs (h ▸ List.mem_cons_self _ _)
          rw [h6 _ hs1]
          simp [hs2]
        · intro s2 hstep2 hmem
          rcases List.mem_cons.mp hmem with heq | hmem2
          · have hs2 : s2 = (nx, t + 1) := by
              rcases s2 with ⟨p2, t2⟩
              simp only at heq
              subst heq
              have := hstep2.2.1
              simp only at this
              rw [this]
            subst hs2
            rw [h2]
            exact Finset.mem_union_left _ (Finset.mem_insert_self _ _)
          · exact h7 s2 hstep2 hmem2
    · -- some guard fails: the neighbour is skipped, and no `Step` to it exists
      have hstep : expandStep E cur t (q, seen, prev) nx = (q, seen, prev) := by
        unfold expandStep
        by_cases c1 : E.start_time + (E.max_time : ℤ) < t + 1
        · rw [if_pos c1]
        · rw [if_neg c1]
          by_cases c2 : inside nx E.w E.h = true
          · by_cases c3 : nx ∈ E.blocked
            · rw [if_neg (by simp [c2]), if_pos c3]
            · by_cases c4 : ok E nx (t + 1) = true
              · exact absurd ⟨c1, c2, c3, c4⟩ hguards
              · rw [if_neg (by simp [c2]), if_neg c3,
                  if_pos (by simpa using c4)]
          · rw [if_pos (by simpa using c2)]
      rw [hstep]
      obtain ⟨news, h1, h2, h3, h4, h5, h6, h7⟩ :=
        ih q seen prev (fun a ha => hsub a (List.mem_cons_of_mem nx ha))
      refine ⟨news, h1, h2, h3, h4, h5, h6, fun s2 hstep2 hmem => ?_⟩
      rcases List.mem_cons.mp hmem with heq | hmem2
      · exfalso
        rcases s2 with ⟨p2, t2⟩
        simp only at heq
        subst heq
        obtain ⟨_, ht2, hhor, hin, hbl, hok⟩ := hstep2
        simp only at ht2 hhor hin hbl hok
        subst ht2
        exact hguards ⟨by omega, hin, hbl, hok⟩
      · exact h7 s2 hstep2 hmem2

lemma reconstructAux_spec (E : SearchEnv) (s0 : St) (seen : Finset St)
    (prev : St → Option St)
    (hedge : ∀ s u, prev s = some u → u ∈ seen ∧ Step E u s ∧ s ≠ s0)
    (hsome : ∀ s ∈ seen, s ≠ s0 → (prev s).isSome = true)
    (hallow : seen ⊆ allowedF E s0) (hs0 : s0.2 = E.start_time) :
    ∀ n : ℕ, ∀ s ∈ seen, (s.2 - s0.2).toNat = n →
      ∀ acc : List Pos, ∃ pre : List Pos,
        reconstructAux prev s0 n s acc = some (pre ++ acc) ∧
          ChainTo E s0 s pre := by
  intro n
  induction n with
  | zero =>
    intro s hs hn acc
    have hss0 : s = s0 := by
      rcases mem_allowedF.mp (hallow hs) with h | ⟨_, h2, _⟩
      · exact h
      · exfalso; omega
    subst hss0
    exact ⟨[], by simp [reconstructAux], ChainTo.nil⟩
  | succ n ihn =>
    intro s hs hn acc
    have hsne : s ≠ s0 := by
      intro h
      subst h
      simp at hn
    have hbound : E.start_time + 1 ≤ s.2 := by
      rcases mem_allowedF.mp (hallow hs) with h | ⟨_, h2, _⟩
      · exact absurd h hsne
      · exact h2
    obtain ⟨u, hu⟩ := Option.isSome_iff_exists.mp (hsome s hs hsne)
    obtain ⟨huseen, hustep, _⟩ := hedge s u hu
    have hut : u.2 = s.2 - 1 := by
      have := step_time hustep
      omega
    have hun : (u.2 - s0.2).toNat = n := by omega
    obtain ⟨pre, hpre, hchain⟩ := ihn u huseen hun (s.1 :: acc)
    refine ⟨pre ++ [s.1], ?_, ChainTo.snoc hchain hustep⟩
    simp only [reconstructAux, if_neg hsne, hu]
    rw [hpre, List.append_assoc, List.singleton_append]

/-- The path reconstructed from any seen non-start state is a valid surviving
chain from the start state. -/
lemma reconstruct_spec (E : SearchEnv) (s0 : St) (seen : Finset St)
    (prev : St → Option St)
    (hedge : ∀ s u, prev s = some u → u ∈ seen ∧ Step E u s ∧ s ≠ s0)
    (hsome : ∀ s ∈ seen, s ≠ s0 → (prev s).isSome = true)
    (hallow : seen ⊆ allowedF E s0) (hs0 : s0.2 = E.start_time)
    (s : St) (hs : s ∈ seen) :
    ∃ path : List Pos, reconstruct prev s s0 = some path ∧
      ChainTo E s0 s path := by
  obtain ⟨pre, hpre, hchain⟩ := reconstructAux_spec E s0 seen prev hedge hsome
    hallow hs0 (s.2 - s0.2).toNat s hs rfl []
  exact ⟨pre, by simpa [reconstruct] using hpre, hchain⟩

lemma sorted_of_const_time {c : ℤ} :
    ∀ (l : List St), (∀ a ∈ l, a.2 = c) →
      l.Sorted (fun a b : St => a.2 ≤ b.2) := by
  intro l
  induction l with
  | nil => intro _; exact List.sorted_nil
  | cons a l ih =>
    intro h
    refine List.sorted_cons.mpr ⟨fun b hb => ?_, ih fun b hb =>
      h b (List.mem_cons_of_mem a hb)⟩
    rw [h a (List.mem_cons_self a l), h b (List.mem_cons_of_mem a hb)]

/-- The empty-queue exit of the loop: `noPath`, and at that point every
reachable state has been processed without satisfying the goal. -/
lemma bfs_nil_case (E : SearchEnv) (s0 : St) (seen : Finset St)
    (prev : St → Option St) (hInv : BfsInv E s0 [] seen prev) :
    ∀ s, Reach E s0 s → ¬ isGoal E s := by
  intro s hr
  rcases frontier hInv s hr with hs | ⟨u, hu, _⟩
  · exact hInv.not_goal s hs (List.not_mem_nil s)
  · exact absurd hu (List.not_mem_nil u)

/-- Master correctness of the BFS loop: under the invariant and with
sufficient fuel, the loop never gets stuck, returns `noPath` only when no
reachable state is a goal, and any returned path is a surviving chain to a
goal state of minimal arrival tick. -/
theorem bfsAux_correct (E : SearchEnv) (s0 : St) (hs0 : s0.2 = E.start_time) :
    ∀ (fuel : ℕ) (q : List St) (seen : Finset St) (prev : St → Option St),
      BfsInv E s0 q seen prev →
      q.length + ((allowedF E s0).card - seen.card) ≤ fuel →
      (bfsAux E s0 fuel q seen prev ≠ BfsResult.stuck) ∧
      (bfsAux E s0 fuel q seen prev = BfsResult.noPath →
        ∀ s, Reach E s0 s → ¬ isGoal E s) ∧
      (∀ path, bfsAux E s0 fuel q seen prev = BfsResult.found path →
        ∃ s : St, ChainTo E s0 s path ∧ isGoal E s ∧
          ∀ s2, Reach E s0 s2 → isGoal E s2 → s.2 ≤ s2.2) := by
  intro fuel
  induction fuel with
  | zero =>
    intro q seen prev hInv hfuel
    cases q with
    | nil =>
      refine ⟨by simp [bfsAux], fun _ => bfs_nil_case E s0 seen prev hInv,
        fun path h => ?_⟩
      simp [bfsAux] at h
    | cons a q2 =>
      exfalso
      simp only [List.length_cons] at hfuel
      omega
  | succ fuel ih =>
    intro q seen prev hInv hfuel
    cases q with
    | nil =>
      refine ⟨by simp [bfsAux], fun _ => bfs_nil_case E s0 seen prev hInv,
        fun path h => ?_⟩
      simp [bfsAux] at h
    | cons head rest =>
      obtain ⟨cur, t⟩ := head
      have hhead_seen : (cur, t) ∈ seen :=
        hInv.q_seen _ (List.mem_cons_self _ _)
      have htb := seen_time_bounds hInv hs0 hhead_seen
      have hhor : ¬ (E.start_time + (E.max_time : ℤ) < t) := by
        simp only at htb
        omega
      simp only [bfsAux, if_neg hhor]
      by_cases hgoal : E.start_time < t ∧ E.goal_pred cur t = true
      · rw [if_pos hgoal]
        obtain ⟨path0, hrec, hchain⟩ := reconstruct_spec E s0 seen prev
          hInv.prev_edge hInv.prev_some hInv.seen_allowed hs0 (cur, t)
          hhead_seen
        rw [hrec]
        have hmin : ∀ s2, Reach E s0 s2 → isGoal E s2 → t ≤ s2.2 := by
          intro s2 hr2 hg2
          rcases frontier hInv s2 hr2 with hseen2 | ⟨u, hu, hrf⟩
          · by_cases hq2 : s2 ∈ (cur, t) :: rest
            · rcases List.mem_cons.mp hq2 with rfl | hq3
              · exact le_refl _
              · exact (List.sorted_cons.mp hInv.sorted).1 s2 hq3
            · exact absurd hg2 (hInv.not_goal s2 hseen2 hq2)
          · have hu2 : t ≤ u.2 := by
              rcases List.mem_cons.mp hu with rfl | hq3
              · exact le_refl _
              · exact (List.sorted_cons.mp hInv.sorted).1 u hq3
            exact le_trans hu2 (reachFrom_time_le hrf)
        refine ⟨by simp, by simp, fun path hfound => ?_⟩
        have hpath : path = path0 := by
          cases hfound
          rfl
        subst hpath
        exact ⟨(cur, t), hchain, ⟨hgoal.1, hgoal.2⟩, hmin⟩
      · rw [if_neg hgoal]
        obtain ⟨news, h1, h2, h3, h4, h5, h6, h7⟩ :=
          expandFold_spec E cur t (neighbors4 cur) rest seen prev
            (fun a ha => ha)
        have hexp : List.foldl (expandStep E cur t) (rest, seen, prev)
            (neighbors4 cur) = expand E cur t rest seen prev := rfl
        rw [hexp] at h1 h2 h5 h6 h7
        have hsorted := List.sorted_cons.mp hInv.sorted
        have hnews_notin_seen : ∀ s ∈ news, s ∉ seen := fun s hsn =>
          (h4 s hsn).1
        have hnews_step : ∀ s ∈ news, Step E (cur, t) s := fun s hsn =>
          (h4 s hsn).2.1
        have hnews_time : ∀ s ∈ news, s.2 = t + 1 := fun s hsn =>
          (h4 s hsn).2.2
        have htlb : E.start_time ≤ t := htb.1
        have hnews_allowed : ∀ s ∈ news, s ∈ allowedF E s0 := by
          intro s hsn
          obtain ⟨_, ht2, hhor2, hin2, _, _⟩ := hnews_step s hsn
          refine mem_allowedF.mpr (Or.inr ⟨hin2, ?_, hhor2⟩)
          simp only at ht2
          omega
        have hrest_seen : ∀ s ∈ rest, s ∈ seen := fun s hsr =>
          hInv.q_seen s (List.mem_cons_of_mem _ hsr)
        have hInv2 : BfsInv E s0 (rest ++ news) (seen ∪ news.toFinset)
            ((expand E cur t rest seen prev).2.2) := by
          constructor
          · exact Finset.mem_union_left _ hInv.s0_seen
          · intro s hsq
            rcases List.mem_append.mp hsq with hsr | hsn
            · exact Finset.mem_union_left _ (hrest_seen s hsr)
            · exact Finset.mem_union_right _ (List.mem_toFinset.mpr hsn)
          · intro s hsu
            rcases Finset.mem_union.mp hsu with hsold | hsnew
            · exact hInv.seen_allowed hsold
            · exact hnews_allowed s (List.mem_toFinset.mp hsnew)
          · intro s u hpu
            by_cases hsn : s ∈ news
            · have := h5 s hsn
              rw [this] at hpu
              have hu : u = (cur, t) := by
                cases hpu
                rfl
              subst hu
              refine ⟨Finset.mem_union_left _ hhead_seen, hnews_step s hsn, ?_⟩
              intro hss0
              have := hnews_time s hsn
              subst hss0
              simp only at this
              omega
            · rw [h6 s hsn] at hpu
              obtain ⟨ha, hb, hc⟩ := hInv.prev_edge s u hpu
              exact ⟨Finset.mem_union_left _ ha, hb, hc⟩
          · intro s hsu hsne
            rcases Finset.mem_union.mp hsu with hsold | hsnew
            · have hsn : s ∉ news := fun h => hnews_notin_seen s h hsold
              rw [h6 s hsn]
              exact hInv.prev_some s hsold hsne
            · have hsn := List.mem_toFinset.mp hsnew
              rw [h5 s hsn]
              rfl
          · intro s hsu hsq s2 hstep2
            have hs_not_news : s ∉ news := fun h =>
              hsq (List.mem_append.mpr (Or.inr h))
            rcases Finset.mem_union.mp hsu with hsold | hsnew
            · by_cases hshead : s = (cur, t)
              · subst hshead
                rw [← h2]
                exact h7 s2 hstep2 hstep2.1
              · have hsoldq : s ∉ (cur, t) :: rest := by
                  intro hmem
                  rcases List.mem_cons.mp hmem with h | h
                  · exact hshead h
                  · exact hsq (List.mem_append.mpr (Or.inl h))
                exact Finset.mem_union_left _
                  (hInv.closed s hsold hsoldq s2 hstep2)
            · exact absurd (List.mem_toFinset.mp hsnew) hs_not_news
          · intro s hsu hsq
            have hs_not_news : s ∉ news := fun h =>
              hsq (List.mem_append.mpr (Or.inr h))
            rcases Finset.mem_union.mp hsu with hsold | hsnew
            · by_cases hshead : s = (cur, t)
              · subst hshead
                intro hg
                exact hgoal ⟨hg.1, hg.2⟩
              · have hsoldq : s ∉ (cur, t) :: rest := by
                  intro hmem
                  rcases List.mem_cons.mp hmem with h | h
                  · exact hshead h
                  · exact hsq (List.mem_append.mpr (Or.inl h))
                exact hInv.not_goal s hsold hsoldq
            · exact absurd (List.mem_toFinset.mp hsnew) hs_not_news
          · refine List.pairwise_append.mpr ⟨hsorted.2,
              sorted_of_const_time news hnews_time, fun a ha b hb => ?_⟩
            rw [hnews_time b hb]
            have := hInv.bounded a (List.mem_cons_of_mem _ ha) (cur, t)
              (List.mem_cons_self _ _)
            simpa using this
          · intro a ha b hb
            rcases List.mem_append.mp ha with har | han
            · rcases List.mem_append.mp hb with hbr | hbn
              · exact hInv.bounded a (List.mem_cons_of_mem _ har) b
                  (List.mem_cons_of_mem _ hbr)
              · rw [hnews_time b hbn]
                have := hInv.bounded a (List.mem_cons_of_mem _ har) (cur, t)
                  (List.mem_cons_self _ _)
                simp only at this
                omega
            · rcases List.mem_append.mp hb with hbr | hbn
              · rw [hnews_time a han]
                have := hsorted.1 b hbr
                simp only at this
                omega
              · rw [hnews_time a han, hnews_time b hbn]
                omega
          · rw [List.nodup_append]
            refine ⟨(List.nodup_cons.mp hInv.nodup).2, h3, fun a ha hb => ?_⟩
            exact hnews_notin_seen a hb (hrest_seen a ha)
        have hdisj : Disjoint seen news.toFinset := by
          rw [Finset.disjoint_right]
          intro a ha
          exact hnews_notin_seen a (List.mem_toFinset.mp ha)
        have hcard : (seen ∪ news.toFinset).card = seen.card + news.length := by
          rw [Finset.card_union_of_disjoint hdisj,
            List.toFinset_card_of_nodup h3]
        have hcard_le : (seen ∪ news.toFinset).card ≤ (allowedF E s0).card :=
          Finset.card_le_card hInv2.seen_allowed
        have hfuel2 : (rest ++ news).length +
            ((allowedF E s0).card - (seen ∪ news.toFinset).card) ≤ fuel := by
          rw [List.length_append, hcard]
          rw [hcard] at hcard_le
          simp only [List.length_cons] at hfuel
          omega
        have hres := ih (rest ++ news) (seen ∪ news.toFinset)
          ((expand E cur t rest seen prev).2.2) hInv2 hfuel2
        have hq1 : (expand E cur t rest seen prev).1 = rest ++ news := h1
        have hq2 : (expand E cur t rest seen prev).2.1
            = seen ∪ news.toFinset := h2
        rw [hq1, hq2]
        exact hres

lemma bfsInv_init (E : SearchEnv) (start : Pos) (hs0 : E.start_time = E.start_time) :
    BfsInv E (start, E.start_time) [(start, E.start_time)]
      {(start, E.start_time)} (fun _ => none) := by
  constructor
  · exact Finset.mem_singleton_self _
  · intro s hs
    rw [List.mem_singleton] at hs
    subst hs
    exact Finset.mem_singleton_self _
  · intro s hs
    rw [Finset.mem_singleton] at hs
    subst hs
    exact Finset.mem_insert_self _ _
  · intro s u h
    exact absurd h (by simp)
  · intro s hs hne
    rw [Finset.mem_singleton] at hs
    exact absurd hs hne
  · intro s hs hq
    rw [Finset.mem_singleton] at hs
    subst hs
    exact absurd (List.mem_singleton_self _) hq
  · intro s hs hq
    rw [Finset.mem_singleton] at hs
    subst hs
    exact absurd (List.mem_singleton_self _) hq
  · exact List.sorted_singleton _
  · intro a ha b hb
    rw [List.mem_singleton] at ha hb
    subst ha; subst hb
    omega
  · exact List.nodup_singleton _

lemma bfs_init_fuel (E : SearchEnv) (start : Pos) :
    [(start, E.start_time)].length +
      ((allowedF E (start, E.start_time)).card -
        ({(start, E.start_time)} : Finset St).card) ≤ bfsFuel E := by
  have h1 : (1 : ℕ) ≤ (allowedF E (start, E.start_time)).card :=
    Finset.card_pos.mpr ⟨(start, E.start_time), Finset.mem_insert_self _ _⟩
  have h2 := card_allowedF_le E (start, E.start_time)
  simp only [List.length_singleton, Finset.card_singleton]
  omega

/-- Wrapper form of the master theorem for `_time_bfs_first` itself. -/
lemma time_bfs_first_spec (start : Pos) (start_time : ℤ)
    (blocked : Finset Pos) (min_explosion : Pos → Option ℚ) (safe_margin : ℚ)
    (w h : ℤ) (max_time : ℕ) (goal_pred : Pos → ℤ → Bool) :
    (time_bfs_first start start_time blocked min_explosion safe_margin w h
        max_time goal_pred ≠ BfsResult.stuck) ∧
    (time_bfs_first start start_time blocked min_explosion safe_margin w h
        max_time goal_pred = BfsResult.noPath →
      ∀ s, Reach (searchEnv start_time blocked min_explosion safe_margin w h
          max_time goal_pred) (start, start_time) s →
        ¬ isGoal (searchEnv start_time blocked min_explosion safe_margin w h
          max_time goal_pred) s) ∧
    (∀ path, time_bfs_first start start_time blocked min_explosion safe_margin
        w h max_time goal_pred = BfsResult.found path →
      ∃ s : St,
        ChainTo (searchEnv start_time blocked min_explosion safe_margin w h
          max_time goal_pred) (start, start_time) s path ∧
        isGoal (searchEnv start_time blocked min_explosion safe_margin w h
          max_time goal_pred) s ∧
        ∀ s2, Reach (searchEnv start_time blocked min_explosion safe_margin w
            h max_time goal_pred) (start, start_time) s2 →
          isGoal (searchEnv start_time blocked min_explosion safe_margin w h
            max_time goal_pred) s2 → s.2 ≤ s2.2) := by
  have hrfl : (searchEnv start_time blocked min_explosion safe_margin w h
      max_time goal_pred).start_time = start_time := rfl
  have hmain := bfsAux_correct
    (searchEnv start_time blocked min_explosion safe_margin w h max_time
      goal_pred)
    (start, start_time) rfl
    (bfsFuel (searchEnv start_time blocked min_explosion safe_margin w h
      max_time goal_pred))
    [(start, start_time)] {(start, start_time)} (fun _ => none)
    (bfsInv_init _ start rfl) (bfs_init_fuel _ start)
  exact hmain

lemma ok_true_safety {E : SearchEnv} {p : Pos} {t : ℤ} (h : ok E p t = true) :
    E.min_explosion p = none ∨
      ∀ v, E.min_explosion p = some v → ((t : ℚ) + 1) + E.safe_margin < v := by
  unfold ok safe_to_stay at h
  cases hm : E.min_explosion p with
  | none => exact Or.inl rfl
  | some v0 =>
    rw [hm] at h
    refine Or.inr fun v hv => ?_
    cases hv
    have h2 : Decidable.decide ((((t + 1 : ℤ) : ℚ)) + E.safe_margin < v0)
        = true := h
    have h3 := of_decide_eq_true h2
    push_cast at h3
    linarith

/-- Claim C1: every position on a path returned by the time-aware search,
arriving at tick `start_time + 1 + i`, either has no scheduled detonation in
`min_explosion` or detonates strictly later than its arrival tick plus one
plus the safety margin — i.e. the unit can survive one further tick there. -/
theorem time_bfs_first_escape_safe (start : Pos) (start_time : ℤ)
    (blocked : Finset Pos) (min_explosion : Pos → Option ℚ) (safe_margin : ℚ)
    (w h : ℤ) (max_time : ℕ) (goal_pred : Pos → ℤ → Bool) (path : List Pos)
    (hres : time_bfs_first start start_time blocked min_explosion safe_margin
      w h max_time goal_pred = BfsResult.found path) :
    ∀ i (hi : i < path.length),
      min_explosion (path.get ⟨i, hi⟩) = none ∨
        ∀ v, min_explosion (path.get ⟨i, hi⟩) = some v →
          (((start_time + 1 + (i : ℤ)) : ℚ) + 1) + safe_margin < v := by
  obtain ⟨s, hchain, _, _⟩ :=
    (time_bfs_first_spec start start_time blocked min_explosion safe_margin
      w h max_time goal_pred).2.2 path hres
  intro i hi
  have hok := chainTo_get_ok hchain i hi
  have := ok_true_safety hok
  simpa using this

/-- Witness for C1: a concrete 3×1 search (bomb scheduled on the start cell
only) returns the one-step path `[(1,0)]`, and the theorem yields the safety
disjunction for its single cell. -/
theorem time_bfs_first_escape_safe_witness :
    (fun p : Pos => if p = ((0 : ℤ), (0 : ℤ)) then some (3 : ℚ) else none)
        ((1, 0) : Pos) = none ∨
      ∀ v, (fun p : Pos => if p = ((0 : ℤ), (0 : ℤ)) then some (3 : ℚ)
          else none) ((1, 0) : Pos) = some v →
        ((((0 : ℤ) + 1 + ((0 : ℕ) : ℤ)) : ℚ) + 1) + 1 / 5 < v := by
  have h := time_bfs_first_escape_safe (0, 0) 0 ∅
    (fun p : Pos => if p = ((0 : ℤ), (0 : ℤ)) then some (3 : ℚ) else none)
    (1 / 5) 3 1 2 (fun p _ => Decidable.decide (p = ((1 : ℤ), (0 : ℤ))))
    [((1 : ℤ), (0 : ℤ))] (by decide) 0 (by decide)
  simpa using h

/-- Claim C8: the time-aware search never fails abnormally; it returns
`noPath` (`None`) exactly when no state `(pos, t)` with
`start_time < t ≤ start_time + max_time` satisfying the goal predicate is
reachable through surviving transitions, and any returned path is a surviving
chain to a goal state whose arrival tick is minimal among all reachable goal
states (the first goal found in breadth-first order, shortest in ticks). -/
theorem time_bfs_first_complete (start : Pos) (start_time : ℤ)
    (blocked : Finset Pos) (min_explosion : Pos → Option ℚ) (safe_margin : ℚ)
    (w h : ℤ) (max_time : ℕ) (goal_pred : Pos → ℤ → Bool) :
    (time_bfs_first start start_time blocked min_explosion safe_margin w h
        max_time goal_pred ≠ BfsResult.stuck) ∧
    (time_bfs_first start start_time blocked min_explosion safe_margin w h
        max_time goal_pred = BfsResult.noPath ↔
      ¬ ∃ s : St, Reach (searchEnv start_time blocked min_explosion
          safe_margin w h max_time goal_pred) (start, start_time) s ∧
        isGoal (searchEnv start_time blocked min_explosion safe_margin w h
          max_time goal_pred) s) ∧
    (∀ path, time_bfs_first start start_time blocked min_explosion safe_margin
        w h max_time goal_pred = BfsResult.found path →
      ∃ s : St,
        ChainTo (searchEnv start_time blocked min_explosion safe_margin w h
          max_time goal_pred) (start, start_time) s path ∧
        isGoal (searchEnv start_time blocked min_explosion safe_margin w h
          max_time goal_pred) s ∧
        ∀ s2, Reach (searchEnv start_time blocked min_explosion safe_margin w
            h max_time goal_pred) (start, start_time) s2 →
          isGoal (searchEnv start_time blocked min_explosion safe_margin w h
            max_time goal_pred) s2 → s.2 ≤ s2.2) := by
  obtain ⟨h1, h2, h3⟩ := time_bfs_first_spec start start_time blocked
    min_explosion safe_margin w h max_time goal_pred
  refine ⟨h1, ⟨fun hnp => ?_, fun hno => ?_⟩, h3⟩
  · rintro ⟨s, hr, hg⟩
    exact h2 hnp s hr hg
  · cases hres : time_bfs_first start start_time blocked min_explosion
        safe_margin w h max_time goal_pred with
    | found path =>
      obtain ⟨s, hchain, hg, _⟩ := h3 path hres
      exact absurd ⟨s, chainTo_reach hchain, hg⟩ hno
    | noPath => rfl
    | stuck => exact absurd hres h1

/-- Witness for C8: on the concrete 3×1 instance the search neither gets
stuck nor misses the goal; applying the theorem to the returned path
`[(1,0)]` produces the surviving minimal-tick goal chain. -/
theorem time_bfs_first_complete_witness :
    ∃ s : St,
      ChainTo (searchEnv 0 ∅
        (fun p : Pos => if p = ((0 : ℤ), (0 : ℤ)) then some (3 : ℚ) else none)
        (1 / 5) 3 1 2 (fun p _ => Decidable.decide (p = ((1 : ℤ), (0 : ℤ)))))
        ((0, 0), 0) s [((1 : ℤ), (0 : ℤ))] ∧
      isGoal (searchEnv 0 ∅
        (fun p : Pos => if p = ((0 : ℤ), (0 : ℤ)) then some (3 : ℚ) else none)
        (1 / 5) 3 1 2 (fun p _ => Decidable.decide (p = ((1 : ℤ), (0 : ℤ)))))
        s ∧
      ∀ s2, Reach (searchEnv 0 ∅
          (fun p : Pos => if p = ((0 : ℤ), (0 : ℤ)) then some (3 : ℚ)
            else none)
          (1 / 5) 3 1 2 (fun p _ => Decidable.decide (p = ((1 : ℤ), (0 : ℤ)))))
          ((0, 0), 0) s2 →
        isGoal (searchEnv 0 ∅
          (fun p : Pos => if p = ((0 : ℤ), (0 : ℤ)) then some (3 : ℚ)
            else none)
          (1 / 5) 3 1 2 (fun p _ => Decidable.decide (p = ((1 : ℤ), (0 : ℤ)))))
          s2 → s.2 ≤ s2.2 := by
  exact (time_bfs_first_complete (0, 0) 0 ∅
    (fun p : Pos => if p = ((0 : ℤ), (0 : ℤ)) then some (3 : ℚ) else none)
    (1 / 5) 3 1 2 (fun p _ => Decidable.decide (p = ((1 : ℤ), (0 : ℤ))))).2.2
    [((1 : ℤ), (0 : ℤ))] (by decide)

/-! ## Data model (`model.py`) and decision engine (`app/engine.py`) -/

/-- `model.Bomb`: an armed bomb of the snapshot. -/
structure Bomb where
  pos : Pos
  range : ℕ
  timer : ℚ
deriving DecidableEq

/-- `model.Arena` (walls, destructible obstacles, armed bombs). -/
structure Arena where
  walls : List Pos
  obstacles : List Pos
  bombs : List Bomb
deriving DecidableEq

/-- `model.Bomber`: one controllable unit. -/
structure Bomber where
  id : String
  alive : Bool
  pos : Pos
  armor : ℤ
  bombs_available : ℕ
  can_move : Bool
  tier : String
  safe_time : ℤ
deriving DecidableEq

/-- `model.GameState`, restricted to the fields the decision engine reads
(`map_size`, `bombers`, `arena`; the engine never touches `player`, `round`,
`enemies`, `mobs`, `code`, `errors`, `raw_score`). -/
structure GameState where
  map_size : ℤ × ℤ
  bombers : List Bomber
  arena : Arena
deriving DecidableEq

/-- `strategies.base.UnitPlan`: a proposed path plus bomb-drop cells. -/
structure UnitPlan where
  path : List Pos
  bombs : List Pos
  debug : String := ""
deriving DecidableEq

/-- `model.MoveCommand`: the finalized instruction for one unit. -/
structure MoveCommand where
  bomber_id : String
  path : List Pos
  bombs : List Pos
deriving DecidableEq

/-- `app/engine.py::EngineConfig`. -/
structure EngineConfig where
  max_path : ℕ := 30
  danger_timer : ℚ := 5 / 2
  my_bomb_range : ℕ := 1
  my_bomb_timer : ℚ := 8
deriving DecidableEq

/-- The per-tick context the engine hands to strategies, with exactly the
fields `DecisionEngine.decide` fills in (`state`, `width`, `height`, `walls`,
`obstacles`, `bombs`, `danger`). -/
structure DecisionContext where
  state : GameState
  width : ℤ
  height : ℤ
  walls : Finset Pos
  obstacles : Finset Pos
  bombs : List BombEntry
  danger : Finset Pos

/-- Modelled from the spec: `app/engine.py` calls `build_danger(...,
map_size=state.map_size)`, a variant of `services.danger.build_danger` that
accepts the map size; the version under `src/` has no such parameter, so the
variant the engine imports is not in `src/`. Spec §4.1's
`danger_map(bombs, timer_threshold, walls, obstacles)` prescribes exactly the
behaviour of `build_danger` (footprints of bombs with timer at most the
threshold, all bombs as mutual stoppers) and attaches no behaviour to the map
bounds, so the variant coincides with `build_danger` and ignores `map_size`. -/
def build_danger_ms (bombs : List BombEntry) (timer_threshold : ℚ)
    (walls obstacles : Finset Pos) (_map_size : ℤ × ℤ) : Finset Pos :=
  build_danger bombs timer_threshold walls obstacles

/-- The engine's bombs dict `{b.pos: (b.range, b.timer) for b in bombs}`,
modelled as the association list of its entries (snapshot bombs have distinct
positions, so overwrite semantics do not arise). -/
def bombEntries (state : GameState) : List BombEntry :=
  state.arena.bombs.map (fun b => (b.pos, b.range, b.timer))

/-- `set(ctx.bombs.keys())`: the bomb positions. -/
def bombCellsOf (state : GameState) : Finset Pos :=
  ((bombEntries state).map (fun e => e.1)).toFinset

/-- Lexicographic-by-code-point comparison of strings, as Python compares
`str` keys; structurally recursive so concrete runs evaluate. -/
def charListLe : List Char → List Char → Bool
  | [], _ => true
  | _ :: _, [] => false
  | a :: as, b :: bs =>
    if a.val < b.val then true
    else if b.val < a.val then false
    else charListLe as bs

/-- String `≤` on the underlying character lists. -/
def strLe (a b : String) : Bool := charListLe a.data b.data

/-- Stable insertion of `a` after every already-placed element `≤` it. -/
def insortBy {α : Type} (le : α → α → Bool) (a : α) : List α → List α
  | [] => [a]
  | b :: l => if le b a then b :: insortBy le a l else a :: b :: l

/-- Stable insertion sort, modelling Python's stable `list.sort`. -/
def sortBy {α : Type} (le : α → α → Bool) (l : List α) : List α :=
  l.foldl (fun acc a => insortBy le a acc) []

/-- The living, movable units in the engine's deterministic order
(`units.sort(key=lambda u: u.id)`, a stable sort by unit id). -/
def unitsOf (state : GameState) : List Bomber :=
  sortBy (fun a b => strLe a.id b.id)
    (state.bombers.filter (fun u => u.alive && u.can_move))

/-- `occupied_now = {u.pos for u in units}` at the start of the tick. -/
def occupiedOf (state : GameState) : Finset Pos :=
  ((unitsOf state).map (fun u => u.pos)).toFinset

/-- The walk of `_validate_and_clip`: follow the proposed path from the
current cell, keeping steps while each is 4-adjacent to its predecessor and
not blocked, truncating at the first violation. -/
def safeWalk (blocked : Finset Pos) : Pos → List Pos → List Pos
  | _, [] => []
  | cur, step :: rest =>
    if (step.1 - cur.1).natAbs + (step.2 - cur.2).natAbs ≠ 1 then []
    else if step ∈ blocked then []
    else step :: safeWalk blocked step rest

/-- `DecisionEngine._validate_and_clip(unit, plan, ctx)`: clip the path to
`max_path`; drop bombs not on the clipped path; truncate bombs to
`bombs_available`; truncate the path at the first non-adjacent or blocked
step; fail if nothing remains; drop bombs that fell off the path; finally,
clear all bombs unless the first bomb is the first path step. -/
def validate_and_clip (cfg : EngineConfig) (unit : Bomber) (plan : UnitPlan)
    (walls obstacles bomb_cells : Finset Pos) : Option UnitPlan :=
  let path := plan.path.take cfg.max_path
  let bombs0 := plan.bombs.filter (fun b => Decidable.decide (b ∈ path))
  let bombs1 := bombs0.take unit.bombs_available
  let blocked := walls ∪ obstacles ∪ bomb_cells
  let safe_path := safeWalk blocked unit.pos path
  if safe_path.isEmpty then none
  else
    let bombs2 := bombs1.filter (fun b => Decidable.decide (b ∈ safe_path))
    let bombs3 :=
      if bombs2 ≠ [] ∧ bombs2.head? ≠ safe_path.head? then [] else bombs2
    some ⟨safe_path, bombs3, plan.debug⟩

/-- Per-tick mutable state of the `for unit in units` loop of
`DecisionEngine.decide`, plus the ambient mutable state `σ` visible to the
strategies (their instance caches and, for `RandomWalkStrategy`, the global
`random` generator). -/
structure TickAcc (σ : Type) where
  occupied : Finset Pos
  reserved_next : Finset Pos
  reserved_blast : Finset Pos
  cmds : List MoveCommand
  s : σ

/-- The loop's `can_take(step)`: not claimed by an earlier unit this tick,
not occupied (unless it is the unit's own cell), and not inside a blast
reserved this tick. -/
def canTake {σ : Type} (acc : TickAcc σ) (unit : Bomber) (step : Pos) : Bool :=
  Decidable.decide (step ∉ acc.reserved_next ∧
    (step ∉ acc.occupied ∨ step = unit.pos) ∧ step ∉ acc.reserved_blast)

/-- One iteration of the unit loop of `DecisionEngine.decide`: ask the
strategy (`_decide_one`, here a parameter covering `self.registry` /
`self.assignments` / the instance cache), validate and clip, pick the step
(the first bomb cell if any, else the first takeable path cell), then emit
the single-step command, reserving the destination and — on a bomb drop —
the bomb's future blast footprint. -/
def decideUnitStep {σ : Type} (cfg : EngineConfig) (state : GameState)
    (ctx : DecisionContext) (walls obstacles bomb_cells : Finset Pos)
    (decide_one : Bomber → DecisionContext → σ → Option UnitPlan × σ)
    (acc : TickAcc σ) (unit : Bomber) : TickAcc σ :=
  match (decide_one unit ctx acc.s).1 with
  | none => { acc with s := (decide_one unit ctx acc.s).2 }
  | some plan0 =>
    match validate_and_clip cfg unit plan0 walls obstacles bomb_cells with
    | none => { acc with s := (decide_one unit ctx acc.s).2 }
    | some plan =>
      match (match plan.bombs.head? with
          | some m => if canTake acc unit m then some m else none
          | none => plan.path.find? (canTake acc unit)) with
      | none => { acc with s := (decide_one unit ctx acc.s).2 }
      | some c =>
        { occupied := insert c acc.occupied,
          reserved_next := insert c acc.reserved_next,
          reserved_blast := acc.reserved_blast ∪
            (if (plan.bombs.filter
                (fun b => Decidable.decide (b = c))).isEmpty then
              (∅ : Finset Pos)
            else danger_from_bomb c cfg.my_bomb_range walls obstacles
              (bomb_cells ∪ {c}) state.map_size),
          cmds := acc.cmds ++
            [⟨unit.id, [c],
              plan.bombs.filter (fun b => Decidable.decide (b = c))⟩],
          s := (decide_one unit ctx acc.s).2 }

/-- `DecisionEngine.decide(state)`: build the danger model and context, then
run the unit loop in stable unit-id order. The strategy dispatch
`_decide_one` is the parameter `decide_one`, threaded through the ambient
mutable state `σ`. -/
def DecisionEngine.decide {σ : Type} (cfg : EngineConfig) (state : GameState)
    (decide_one : Bomber → DecisionContext → σ → Option UnitPlan × σ)
    (s0 : σ) : List MoveCommand × σ :=
  let walls := state.arena.walls.toFinset
  let obstacles := state.arena.obstacles.toFinset
  let bombs := bombEntries state
  let bomb_cells := bombCellsOf state
  let danger := build_danger_ms bombs cfg.danger_timer walls obstacles
    state.map_size
  let ctx : DecisionContext :=
    ⟨state, state.map_size.1, state.map_size.2, walls, obstacles, bombs,
      danger⟩
  let acc := (unitsOf state).foldl
    (decideUnitStep cfg state ctx walls obstacles bomb_cells decide_one)
    ⟨occupiedOf state, ∅, ∅, [], s0⟩
  (acc.cmds, acc.s)

/-- `strategies/random_walk.py::RandomWalkStrategy.decide_for_unit`: step to
a uniformly random unblocked in-bounds neighbour. The module-global
`random` generator is modelled as a stream of draws (`List ℕ`), one consumed
per `random.choice`, which picks `options[draw % len(options)]`; the
`ctx.bomb_cells` the source reads is the set of bomb positions of the
context's bombs dict. -/
def random_walk_decide (unit : Bomber) (ctx : DecisionContext)
    (rng : List ℕ) : Option UnitPlan × List ℕ :=
  let blocked := ctx.walls ∪ ctx.obstacles ∪
    ((ctx.bombs.map (fun e => e.1)).toFinset)
  let options := (neighbors4 unit.pos).filter
    (fun p => inside p ctx.width ctx.height &&
      !(Decidable.decide (p ∈ blocked)))
  if options.isEmpty then (none, rng)
  else
    (some ⟨[options.getD (rng.headD 0 % options.length) (0, 0)], [], "rnd"⟩,
      rng.tail)

/-- Validity of a walked path: every step 4-adjacent to its predecessor (the
first to the unit's current cell) and not blocked. -/
def stepsValid (blocked : Finset Pos) : Pos → List Pos → Prop
  | _, [] => True
  | cur, p :: rest =>
    (p.1 - cur.1).natAbs + (p.2 - cur.2).natAbs = 1 ∧ p ∉ blocked ∧
      stepsValid blocked p rest

lemma safeWalk_stepsValid (blocked : Finset Pos) :
    ∀ (path : List Pos) (cur : Pos),
      stepsValid blocked cur (safeWalk blocked cur path) := by
  intro path
  induction path with
  | nil => intro cur; trivial
  | cons step rest ih =>
    intro cur
    rw [safeWalk]
    split
    · trivial
    · split
      · trivial
      · rename_i hadj hbl
        exact ⟨by omega, hbl, ih step⟩

lemma safeWalk_nil_iff (blocked : Finset Pos) (cur : Pos) (path : List Pos) :
    safeWalk blocked cur path = [] ↔
      ∀ s, path.head? = some s →
        ¬ ((s.1 - cur.1).natAbs + (s.2 - cur.2).natAbs = 1 ∧ s ∉ blocked) := by
  cases path with
  | nil => simp [safeWalk]
  | cons step rest =>
    rw [safeWalk]
    constructor
    · intro h s hs
      rw [List.head?_cons, Option.some_inj] at hs
      subst hs
      rintro ⟨hadj, hbl⟩
      rw [if_neg (by omega), if_neg hbl] at h
      exact List.cons_ne_nil _ _ h
    · intro h
      have := h step (by rw [List.head?_cons])
      split
      · rfl
      · split
        · rfl
        · rename_i hadj hbl
          exact absurd ⟨by omega, hbl⟩ this

/-- The per-tick invariant of the unit loop of `DecisionEngine.decide`:
emitted commands are single-step with all bombs on that step, their
destinations are pairwise distinct (held in `reserved_next`), a destination
on an initially occupied cell is the unit's own cell, and every same-tick
bomb's footprint is inside `reserved_blast`, which no later destination may
enter. -/
structure TickInv {σ : Type} (cfg : EngineConfig) (state : GameState)
    (walls obstacles bomb_cells : Finset Pos) (initOcc : Finset Pos)
    (units : List Bomber) (acc : TickAcc σ) : Prop where
  cmd_shape : ∀ cmd ∈ acc.cmds, ∃ u c, u ∈ units ∧ cmd.bomber_id = u.id ∧
    cmd.path = [c] ∧ (∀ b ∈ cmd.bombs, b = c) ∧ c ∈ acc.reserved_next ∧
    (c ∈ initOcc → c = u.pos)
  occ_sup : initOcc ⊆ acc.occupied
  pairwise_heads : acc.cmds.Pairwise
    (fun c1 c2 => ∀ a b, c1.path = [a] → c2.path = [b] → a ≠ b)
  blast_resv : ∀ cmd ∈ acc.cmds, cmd.bombs ≠ [] → ∀ a, cmd.path = [a] →
    danger_from_bomb a cfg.my_bomb_range walls obstacles (bomb_cells ∪ {a})
      state.map_size ⊆ acc.reserved_blast
  pairwise_blast : acc.cmds.Pairwise
    (fun c1 c2 => c1.bombs ≠ [] → ∀ a b, c1.path = [a] → c2.path = [b] →
      b ∉ danger_from_bomb a cfg.my_bomb_range walls obstacles
        (bomb_cells ∪ {a}) state.map_size)

lemma canTake_spec {σ : Type} {acc : TickAcc σ} {unit : Bomber} {step : Pos}
    (h : canTake acc unit step = true) :
    step ∉ acc.reserved_next ∧ (step ∉ acc.occupied ∨ step = unit.pos) ∧
      step ∉ acc.reserved_blast :=
  of_decide_eq_true h

lemma tickInv_step {σ : Type} (cfg : EngineConfig) (state : GameState)
    (ctx : DecisionContext) (walls obstacles bomb_cells : Finset Pos)
    (decide_one : Bomber → DecisionContext → σ → Option UnitPlan × σ)
    (initOcc : Finset Pos) (units : List Bomber) (acc : TickAcc σ)
    (unit : Bomber) (hu : unit ∈ units)
    (hInv : TickInv cfg state walls obstacles bomb_cells initOcc units acc) :
    TickInv cfg state walls obstacles bomb_cells initOcc units
      (decideUnitStep cfg state ctx walls obstacles bomb_cells decide_one acc
        unit) := by
  unfold decideUnitStep
  split
  · exact ⟨hInv.cmd_shape, hInv.occ_sup, hInv.pairwise_heads, hInv.blast_resv,
      hInv.pairwise_blast⟩
  · split
    · exact ⟨hInv.cmd_shape, hInv.occ_sup, hInv.pairwise_heads,
        hInv.blast_resv, hInv.pairwise_blast⟩
    · split
      · exact ⟨hInv.cmd_shape, hInv.occ_sup, hInv.pairwise_heads,
          hInv.blast_resv, hInv.pairwise_blast⟩
      · rename_i x1 plan0 hdec x2 plan hval x3 c hcho
        have hchosen : canTake acc unit c = true := by
          revert hcho
          cases hb : plan.bombs.head? with
          | some m =>
            intro hc
            have hc2 : (if canTake acc unit m then some m else none)
                = some c := hc
            by_cases hct : canTake acc unit m
            · rw [if_pos hct] at hc2
              cases hc2
              exact hct
            · rw [if_neg hct] at hc2
              cases hc2
          | none =>
            intro hc
            have hc2 : plan.path.find? (canTake acc unit) = some c := hc
            exact List.find?_some hc2
        obtain ⟨hc1, hc2, hc3⟩ := canTake_spec hchosen
        constructor
        · intro cmd hcmd
          rcases List.mem_append.mp hcmd with hold | hnew
          · obtain ⟨u, c2, ha, hb, hcp, hd, he, hf⟩ :=
              hInv.cmd_shape cmd hold
            exact ⟨u, c2, ha, hb, hcp, hd, Finset.mem_insert_of_mem he, hf⟩
          · rw [List.mem_singleton] at hnew
            subst hnew
            refine ⟨unit, c, hu, rfl, rfl, ?_, Finset.mem_insert_self _ _, ?_⟩
            · intro b hb
              have hb2 : b ∈ plan.bombs.filter
                  (fun b => Decidable.decide (b = c)) := hb
              exact of_decide_eq_true ((List.mem_filter.mp hb2).2)
            · intro hco
              rcases hc2 with hno | hyes
              · exact absurd (hInv.occ_sup hco) hno
              · exact hyes
        · exact subset_trans hInv.occ_sup (Finset.subset_insert _ _)
        · refine List.pairwise_append.mpr ⟨hInv.pairwise_heads,
            List.pairwise_singleton _ _, ?_⟩
          intro c1 h1 c2 h2
          rw [List.mem_singleton] at h2
          subst h2
          intro a b hpa hpb
          obtain ⟨u, c3, _, _, hcp, _, he, _⟩ := hInv.cmd_shape c1 h1
          rw [hcp] at hpa
          cases hpa
          simp only at hpb
          cases hpb
          intro hab
          subst hab
          exact hc1 he
        · intro cmd hcmd hbne a hpa
          rcases List.mem_append.mp hcmd with hold | hnew
          · exact subset_trans (hInv.blast_resv cmd hold hbne a hpa)
              (Finset.subset_union_left)
          · rw [List.mem_singleton] at hnew
            subst hnew
            simp only at hpa
            cases hpa
            have hbne2 : plan.bombs.filter
                (fun b => Decidable.decide (b = c)) ≠ [] := hbne
            have hne : (plan.bombs.filter
                (fun b => Decidable.decide (b = c))).isEmpty = false := by
              cases hemp : (plan.bombs.filter
                  (fun b => Decidable.decide (b = c))).isEmpty
              · rfl
              · exact absurd (List.isEmpty_iff.mp hemp) hbne2
            have hsub : danger_from_bomb c cfg.my_bomb_range walls obstacles
                (bomb_cells ∪ {c}) state.map_size ⊆
                  acc.reserved_blast ∪
                    (if (plan.bombs.filter
                        (fun b => Decidable.decide (b = c))).isEmpty then
                      (∅ : Finset Pos)
                    else danger_from_bomb c cfg.my_bomb_range walls obstacles
                      (bomb_cells ∪ {c}) state.map_size) := by
              simp only [hne, Bool.false_eq_true, if_false]
              exact Finset.subset_union_right
            exact hsub
        · refine List.pairwise_append.mpr ⟨hInv.pairwise_blast,
            List.pairwise_singleton _ _, ?_⟩
          intro c1 h1 c2 h2
          rw [List.mem_singleton] at h2
          subst h2
          intro hbne a b hpa hpb
          simp only at hpb
          cases hpb
          intro hmem
          exact hc3 (hInv.blast_resv c1 h1 hbne a hpa hmem)

lemma tickInv_fold {σ : Type} (cfg : EngineConfig) (state : GameState)
    (ctx : DecisionContext) (walls obstacles bomb_cells : Finset Pos)
    (decide_one : Bomber → DecisionContext → σ → Option UnitPlan × σ)
    (initOcc : Finset Pos) (units : List Bomber) :
    ∀ (us : List Bomber) (acc : TickAcc σ), (∀ u ∈ us, u ∈ units) →
      TickInv cfg state walls obstacles bomb_cells initOcc units acc →
      TickInv cfg state walls obstacles bomb_cells initOcc units
        (us.foldl
          (decideUnitStep cfg state ctx walls obstacles bomb_cells decide_one)
          acc) := by
  intro us
  induction us with
  | nil => intro acc _ h; exact h
  | cons u us ih =>
    intro acc hsub h
    rw [List.foldl_cons]
    exact ih _ (fun v hv => hsub v (List.mem_cons_of_mem u hv))
      (tickInv_step cfg state ctx walls obstacles bomb_cells decide_one
        initOcc units acc u (hsub u (List.mem_cons_self u us)) h)

lemma tickInv_init {σ : Type} (cfg : EngineConfig) (state : GameState)
    (walls obstacles bomb_cells : Finset Pos) (s0 : σ) :
    TickInv cfg state walls obstacles bomb_cells (occupiedOf state)
      (unitsOf state)
      (⟨occupiedOf state, ∅, ∅, [], s0⟩ : TickAcc σ) := by
  constructor
  · intro cmd hcmd
    exact absurd hcmd (List.not_mem_nil cmd)
  · exact subset_refl _
  · exact List.Pairwise.nil
  · intro cmd hcmd
    exact absurd hcmd (List.not_mem_nil cmd)
  · exact List.Pairwise.nil

/-- The engine's tick invariant, instantiated at the real `decide` run. -/
lemma decide_tickInv {σ : Type} (cfg : EngineConfig) (state : GameState)
    (decide_one : Bomber → DecisionContext → σ → Option UnitPlan × σ)
    (s0 : σ) :
    TickInv cfg state state.arena.walls.toFinset
      state.arena.obstacles.toFinset (bombCellsOf state) (occupiedOf state)
      (unitsOf state)
      ((unitsOf state).foldl
        (decideUnitStep cfg state
          ⟨state, state.map_size.1, state.map_size.2,
            state.arena.walls.toFinset, state.arena.obstacles.toFinset,
            bombEntries state,
            build_danger_ms (bombEntries state) cfg.danger_timer
              state.arena.walls.toFinset state.arena.obstacles.toFinset
              state.map_size⟩
          state.arena.walls.toFinset state.arena.obstacles.toFinset
          (bombCellsOf state) decide_one)
        ⟨occupiedOf state, ∅, ∅, [], s0⟩) :=
  tickInv_fold cfg state _ _ _ _ decide_one (occupiedOf state)
    (unitsOf state) (unitsOf state) _ (fun _ hu => hu)
    (tickInv_init cfg state _ _ _ s0)

/-- Claim C4: across the commands emitted in one tick, first-step destination
cells are pairwise distinct, and a destination coinciding with a cell
occupied at the start of the tick can only be the commanding unit's own
current cell. -/
theorem engine_conflict_free {σ : Type} (cfg : EngineConfig)
    (state : GameState)
    (decide_one : Bomber → DecisionContext → σ → Option UnitPlan × σ)
    (s0 : σ) :
    ((DecisionEngine.decide cfg state decide_one s0).1.Pairwise
      (fun c1 c2 => ∀ a b, c1.path = [a] → c2.path = [b] → a ≠ b)) ∧
    (∀ cmd ∈ (DecisionEngine.decide cfg state decide_one s0).1,
      ∃ u c, u ∈ unitsOf state ∧ cmd.bomber_id = u.id ∧ cmd.path = [c] ∧
        (c ∈ occupiedOf state → c = u.pos)) := by
  have hInv := decide_tickInv cfg state decide_one s0
  refine ⟨hInv.pairwise_heads, fun cmd hcmd => ?_⟩
  obtain ⟨u, c, ha, hb, hc, _, _, hf⟩ := hInv.cmd_shape cmd hcmd
  exact ⟨u, c, ha, hb, hc, hf⟩

/-- Claim C5: if an earlier unit's command this tick drops a bomb on its
(single) destination cell, no later unit's command steps into the blast
footprint of a bomb at that cell with the engine's configured range and the
current stoppers plus the cell itself. -/
theorem engine_reserved_blast_respected {σ : Type} (cfg : EngineConfig)
    (state : GameState)
    (decide_one : Bomber → DecisionContext → σ → Option UnitPlan × σ)
    (s0 : σ) :
    (DecisionEngine.decide cfg state decide_one s0).1.Pairwise
      (fun c1 c2 => c1.bombs ≠ [] → ∀ a b, c1.path = [a] → c2.path = [b] →
        b ∉ danger_from_bomb a cfg.my_bomb_range
          state.arena.walls.toFinset state.arena.obstacles.toFinset
          (bombCellsOf state ∪ {a}) state.map_size) :=
  (decide_tickInv cfg state decide_one s0).pairwise_blast

/-- Claim C6: a plan surviving `_validate_and_clip` has every step 4-adjacent
to its predecessor (the first to the unit's cell) and unblocked, keeps every
bomb cell on the returned path, drops at most `bombs_available` bombs, and is
nonempty; the result is `None` exactly when no valid first step exists. -/
lemma mem_ite_nil {α : Type} {c : Prop} [Decidable c] {l : List α} {b : α}
    (h : b ∈ (if c then ([] : List α) else l)) : b ∈ l := by
  split at h
  · exact absurd h (List.not_mem_nil b)
  · exact h

lemma length_ite_nil {α : Type} {c : Prop} [Decidable c] (l : List α) :
    (if c then ([] : List α) else l).length ≤ l.length := by
  split <;> simp

theorem validate_and_clip_legal (cfg : EngineConfig) (unit : Bomber)
    (plan : UnitPlan) (walls obstacles bomb_cells : Finset Pos) :
    (∀ r, validate_and_clip cfg unit plan walls obstacles bomb_cells = some r →
      stepsValid (walls ∪ obstacles ∪ bomb_cells) unit.pos r.path ∧
      r.path ≠ [] ∧
      (∀ b ∈ r.bombs, b ∈ r.path) ∧
      r.bombs.length ≤ unit.bombs_available) ∧
    (validate_and_clip cfg unit plan walls obstacles bomb_cells = none ↔
      ∀ s, (plan.path.take cfg.max_path).head? = some s →
        ¬ ((s.1 - unit.pos.1).natAbs + (s.2 - unit.pos.2).natAbs = 1 ∧
          s ∉ walls ∪ obstacles ∪ bomb_cells)) := by
  unfold validate_and_clip
  by_cases hemp : (safeWalk (walls ∪ obstacles ∪ bomb_cells) unit.pos
      (plan.path.take cfg.max_path)).isEmpty
  · rw [if_pos hemp]
    constructor
    · intro r hr
      cases hr
    · rw [← safeWalk_nil_iff (walls ∪ obstacles ∪ bomb_cells) unit.pos
        (plan.path.take cfg.max_path)]
      exact ⟨fun _ => List.isEmpty_iff.mp hemp, fun _ => rfl⟩
  · rw [if_neg hemp]
    constructor
    · intro r hr
      cases hr
      refine ⟨safeWalk_stepsValid _ _ _, ?_, ?_, ?_⟩
      · intro hnil
        have hnil2 : safeWalk (walls ∪ obstacles ∪ bomb_cells) unit.pos
            (plan.path.take cfg.max_path) = [] := hnil
        rw [hnil2] at hemp
        exact hemp rfl
      · intro b hb
        have hb2 := mem_ite_nil hb
        exact of_decide_eq_true (List.mem_filter.mp hb2).2
      · have hlen2 : ((plan.bombs.filter
            (fun b => Decidable.decide (b ∈ plan.path.take cfg.max_path))).take
              unit.bombs_available).length ≤ unit.bombs_available := by
          rw [List.length_take]
          omega
        exact le_trans (length_ite_nil _)
          (le_trans (List.length_filter_le _ _) hlen2)
    · constructor
      · intro h
        cases h
      · intro h
        exfalso
        rw [← safeWalk_nil_iff (walls ∪ obstacles ∪ bomb_cells) unit.pos
          (plan.path.take cfg.max_path)] at h
        rw [h] at hemp
        exact hemp rfl

/-- Witness for C6: the one-step plan `path=[(0,1)], bombs=[(0,1)]` for a
unit at the origin with one bomb available validates unchanged, and the
theorem certifies its legality. -/
theorem validate_and_clip_legal_witness :
    stepsValid ((∅ : Finset Pos) ∪ ∅ ∪ ∅) ((0, 0) : Pos) [((0 : ℤ), (1 : ℤ))] ∧
    ([((0 : ℤ), (1 : ℤ))] : List Pos) ≠ [] ∧
    (∀ b ∈ [((0 : ℤ), (1 : ℤ))], b ∈ [((0 : ℤ), (1 : ℤ))]) ∧
    ([((0 : ℤ), (1 : ℤ))] : List Pos).length ≤ 1 := by
  have h := (validate_and_clip_legal ⟨30, 5 / 2, 1, 8⟩
    ⟨"a", true, (0, 0), 0, 1, true, "", 0⟩
    ⟨[(0, 1)], [(0, 1)], ""⟩ ∅ ∅ ∅).1
    ⟨[(0, 1)], [(0, 1)], ""⟩ (by decide)
  exact h

/-! ## Concrete scenarios for witnesses and counterexamples -/

/-- A unit with the given id, position and bombs (alive and movable). -/
def mkBomber (n : String) (p : Pos) (nb : ℕ) : Bomber :=
  ⟨n, true, p, 0, nb, true, "", 0⟩

/-- The engine configuration of `main.py` (`max_path=30`,
`danger_timer=2.5`, bomb range 1, bomb timer 8). -/
def engCfg : EngineConfig := ⟨30, 5 / 2, 1, 8⟩

/-- A 4×1 corridor with units `a` (two bombs) and `b` (none), listed out of
id order to exercise the engine's sort. -/
def stateTwo : GameState :=
  ⟨(4, 1), [mkBomber "b" (3, 0) 0, mkBomber "a" (0, 0) 2], ⟨[], [], []⟩⟩

/-- A 3×3 open board with one unit in the middle. -/
def stateOne : GameState :=
  ⟨(3, 3), [mkBomber "a" (1, 1) 0], ⟨[], [], []⟩⟩

/-- Strategies proposing disjoint single steps (for the C4 witness). -/
def planC4 (u : Bomber) (_ : DecisionContext) (s : ℕ) :
    Option UnitPlan × ℕ :=
  (if u.id = "a" then some ⟨[(1, 0)], [], ""⟩ else some ⟨[(2, 0)], [], ""⟩, s)

/-- Unit `a` drops a bomb at `(1,0)`; unit `b` steps to `(4,0)`, outside
that bomb's blast (for the C5 witness). -/
def planC5 (u : Bomber) (_ : DecisionContext) (s : ℕ) :
    Option UnitPlan × ℕ :=
  (if u.id = "a" then some ⟨[(1, 0)], [(1, 0)], ""⟩
   else some ⟨[(4, 0)], [], ""⟩, s)

/-- A plan listing the same bomb cell twice (for the C10 counterexample). -/
def planC10 (_ : Bomber) (_ : DecisionContext) (s : ℕ) :
    Option UnitPlan × ℕ :=
  (some ⟨[(1, 0)], [(1, 0), (1, 0)], ""⟩, s)

/-- Witness for C4: on `stateTwo` both units receive commands, and the
theorem forces their destination cells `(1,0)` and `(2,0)` apart. -/
theorem engine_conflict_free_witness :
    (DecisionEngine.decide engCfg stateTwo planC4 0).1 =
      [⟨"a", [(1, 0)], []⟩, ⟨"b", [(2, 0)], []⟩] ∧
    ((1, 0) : Pos) ≠ (2, 0) := by
  refine ⟨by decide, ?_⟩
  have h := (engine_conflict_free engCfg stateTwo planC4 0).1
  rw [show (DecisionEngine.decide engCfg stateTwo planC4 0).1 =
      [⟨"a", [(1, 0)], []⟩, ⟨"b", [(2, 0)], []⟩] from by decide] at h
  exact (List.pairwise_cons.mp h).1 ⟨"b", [(2, 0)], []⟩
    (List.mem_singleton_self _) (1, 0) (2, 0) rfl rfl

/-- Witness for C5: on `stateTwo`, unit `a` bombs `(1,0)` and unit `b` is
commanded to `(4,0)`; the theorem certifies `(4,0)` lies outside the
reserved blast footprint of the just-placed bomb. -/
theorem engine_reserved_blast_respected_witness :
    (DecisionEngine.decide engCfg stateTwo planC5 0).1 =
      [⟨"a", [(1, 0)], [(1, 0)]⟩, ⟨"b", [(4, 0)], []⟩] ∧
    ((4, 0) : Pos) ∉ danger_from_bomb (1, 0) engCfg.my_bomb_range
      stateTwo.arena.walls.toFinset stateTwo.arena.obstacles.toFinset
      (bombCellsOf stateTwo ∪ {(1, 0)}) stateTwo.map_size := by
  refine ⟨by decide, ?_⟩
  have h := engine_reserved_blast_respected engCfg stateTwo planC5 0
  rw [show (DecisionEngine.decide engCfg stateTwo planC5 0).1 =
      [⟨"a", [(1, 0)], [(1, 0)]⟩, ⟨"b", [(4, 0)], []⟩] from by decide] at h
  exact (List.pairwise_cons.mp h).1 ⟨"b", [(4, 0)], []⟩
    (List.mem_singleton_self _) (by decide) (1, 0) (4, 0) rfl rfl

/-- Claim C10 (amended): after validation a surviving plan's bomb list is
empty or starts with the first path cell, a plan whose first remaining bomb
differs from the first validated step loses all its bombs while keeping its
path, and every emitted command's bombs all equal its single path cell
(possibly repeated, when the proposed plan listed the same cell twice). -/
theorem engine_bomb_on_first_step {σ : Type} (cfg : EngineConfig)
    (state : GameState)
    (decide_one : Bomber → DecisionContext → σ → Option UnitPlan × σ)
    (s0 : σ) (unit : Bomber) (plan : UnitPlan)
    (walls obstacles bomb_cells : Finset Pos) :
    (∀ r, validate_and_clip cfg unit plan walls obstacles bomb_cells = some r →
      r.bombs = [] ∨ r.bombs.head? = r.path.head?) ∧
    (∀ cmd ∈ (DecisionEngine.decide cfg state decide_one s0).1,
      ∀ b ∈ cmd.bombs, cmd.path = [b]) := by
  constructor
  · intro r hr
    simp only [validate_and_clip] at hr
    split at hr
    · cases hr
    · cases hr
      by_cases hcond : ((plan.bombs.filter
            (fun b => Decidable.decide (b ∈ plan.path.take cfg.max_path))).take
              unit.bombs_available).filter
            (fun b => Decidable.decide (b ∈ safeWalk
              (walls ∪ obstacles ∪ bomb_cells) unit.pos
              (plan.path.take cfg.max_path))) ≠ [] ∧
          (((plan.bombs.filter
            (fun b => Decidable.decide (b ∈ plan.path.take cfg.max_path))).take
              unit.bombs_available).filter
            (fun b => Decidable.decide (b ∈ safeWalk
              (walls ∪ obstacles ∪ bomb_cells) unit.pos
              (plan.path.take cfg.max_path)))).head? ≠
            (safeWalk (walls ∪ obstacles ∪ bomb_cells) unit.pos
              (plan.path.take cfg.max_path)).head?
      · exact Or.inl (if_pos hcond)
      · rcases not_and_or.mp hcond with hb | hh
        · exact Or.inl ((if_neg hcond).trans (not_not.mp hb))
        · exact Or.inr
            ((congrArg List.head? (if_neg hcond)).trans (not_not.mp hh))
  · intro cmd hcmd b hb
    obtain ⟨u, c, _, _, hpath, hbomb, _, _⟩ :=
      (decide_tickInv cfg state decide_one s0).cmd_shape cmd hcmd
    rw [hpath, hbomb b hb]

/-- Witness for C10's amended claim: on the duplicate-bomb run, the emitted
command's path is the singleton of each of its (two equal) bomb cells. -/
theorem engine_bomb_on_first_step_witness :
    (DecisionEngine.decide engCfg stateTwo planC10 0).1 =
      [⟨"a", [(1, 0)], [(1, 0), (1, 0)]⟩] ∧
    ([((1 : ℤ), (0 : ℤ))] : List Pos) = [(1, 0)] := by
  refine ⟨by decide, ?_⟩
  exact (engine_bomb_on_first_step engCfg stateTwo planC10 0
    (mkBomber "a" (0, 0) 2) ⟨[(1, 0)], [(1, 0), (1, 0)], ""⟩ ∅ ∅ ∅).2
    ⟨"a", [(1, 0)], [(1, 0), (1, 0)]⟩ (by decide) (1, 0) (by decide)

/-- Counterexample to C10 as stated: with a proposed plan listing the same
bomb cell twice and two bombs available, the emitted command's bomb list is
`[(1,0),(1,0)]` — neither empty nor exactly the single path cell `[(1,0)]`. -/
theorem engine_bombs_exactly_path_counterexample :
    ¬ (∀ cmd ∈ (DecisionEngine.decide engCfg stateTwo planC10 0).1,
        cmd.bombs = [] ∨ cmd.bombs = cmd.path) := by
  decide

lemma decideUnitStep_agree {σ : Type} (cfg : EngineConfig)
    (state : GameState) (ctx : DecisionContext)
    (walls obstacles bomb_cells : Finset Pos)
    (decide_one : Bomber → DecisionContext → σ → Option UnitPlan × σ)
    (f : Bomber → DecisionContext → Option UnitPlan)
    (hpure : ∀ u c s, (decide_one u c s).1 = f u c)
    (acc1 acc2 : TickAcc σ) (hocc : acc1.occupied = acc2.occupied)
    (hrn : acc1.reserved_next = acc2.reserved_next)
    (hrb : acc1.reserved_blast = acc2.reserved_blast)
    (hcm : acc1.cmds = acc2.cmds) (unit : Bomber) :
    (decideUnitStep cfg state ctx walls obstacles bomb_cells decide_one acc1
        unit).occupied
      = (decideUnitStep cfg state ctx walls obstacles bomb_cells decide_one
        acc2 unit).occupied ∧
    (decideUnitStep cfg state ctx walls obstacles bomb_cells decide_one acc1
        unit).reserved_next
      = (decideUnitStep cfg state ctx walls obstacles bomb_cells decide_one
        acc2 unit).reserved_next ∧
    (decideUnitStep cfg state ctx walls obstacles bomb_cells decide_one acc1
        unit).reserved_blast
      = (decideUnitStep cfg state ctx walls obstacles bomb_cells decide_one
        acc2 unit).reserved_blast ∧
    (decideUnitStep cfg state ctx walls obstacles bomb_cells decide_one acc1
        unit).cmds
      = (decideUnitStep cfg state ctx walls obstacles bomb_cells decide_one
        acc2 unit).cmds := by
  have hct : canTake acc1 unit = canTake acc2 unit := by
    funext step
    unfold canTake
    rw [hocc, hrn, hrb]
  unfold decideUnitStep
  rw [hpure unit ctx acc1.s, hpure unit ctx acc2.s, hct, hocc, hrn, hrb, hcm]
  cases f unit ctx with
  | none => exact ⟨rfl, rfl, rfl, rfl⟩
  | some plan0 =>
    dsimp only
    cases validate_and_clip cfg unit plan0 walls obstacles bomb_cells with
    | none => exact ⟨rfl, rfl, rfl, rfl⟩
    | some plan =>
      dsimp only
      cases (match plan.bombs.head? with
          | some m => if canTake acc2 unit m then some m else none
          | none => plan.path.find? (canTake acc2 unit)) with
      | none => exact ⟨rfl, rfl, rfl, rfl⟩
      | some c => exact ⟨rfl, rfl, rfl, rfl⟩

lemma decide_fold_agree {σ : Type} (cfg : EngineConfig) (state : GameState)
    (ctx : DecisionContext) (walls obstacles bomb_cells : Finset Pos)
    (decide_one : Bomber → DecisionContext → σ → Option UnitPlan × σ)
    (f : Bomber → DecisionContext → Option UnitPlan)
    (hpure : ∀ u c s, (decide_one u c s).1 = f u c) :
    ∀ (us : List Bomber) (acc1 acc2 : TickAcc σ),
      acc1.occupied = acc2.occupied →
      acc1.reserved_next = acc2.reserved_next →
      acc1.reserved_blast = acc2.reserved_blast →
      acc1.cmds = acc2.cmds →
      (us.foldl (decideUnitStep cfg state ctx walls obstacles bomb_cells
        decide_one) acc1).cmds
        = (us.foldl (decideUnitStep cfg state ctx walls obstacles bomb_cells
          decide_one) acc2).cmds := by
  intro us
  induction us with
  | nil => intro acc1 acc2 _ _ _ hcm; exact hcm
  | cons u us ih =>
    intro acc1 acc2 hocc hrn hrb hcm
    rw [List.foldl_cons, List.foldl_cons]
    obtain ⟨h1, h2, h3, h4⟩ := decideUnitStep_agree cfg state ctx walls
      obstacles bomb_cells decide_one f hpure acc1 acc2 hocc hrn hrb hcm u
    exact ih _ _ h1 h2 h3 h4

/-- Claim C9 (amended): for any strategy whose proposal depends only on the
unit and the per-tick context — not on ambient mutable state such as the
global random generator — two consecutive invocations of the decision pass
on the same snapshot produce the same command list. -/
theorem engine_decide_deterministic {σ : Type} (cfg : EngineConfig)
    (state : GameState)
    (decide_one : Bomber → DecisionContext → σ → Option UnitPlan × σ)
    (f : Bomber → DecisionContext → Option UnitPlan)
    (hpure : ∀ u c s, (decide_one u c s).1 = f u c) (s0 : σ) :
    (DecisionEngine.decide cfg state decide_one
        ((DecisionEngine.decide cfg state decide_one s0).2)).1
      = (DecisionEngine.decide cfg state decide_one s0).1 :=
  decide_fold_agree cfg state _ _ _ _ decide_one f hpure (unitsOf state)
    ⟨occupiedOf state, ∅, ∅, [],
      (DecisionEngine.decide cfg state decide_one s0).2⟩
    ⟨occupiedOf state, ∅, ∅, [], s0⟩ rfl rfl rfl rfl

/-- Witness for C9's amended claim: the always-idle strategy (returning no
plan and leaving the state untouched) yields identical command lists on two
consecutive runs. -/
theorem engine_decide_deterministic_witness :
    (DecisionEngine.decide engCfg stateTwo
        (fun _ _ (s : ℕ) => ((none : Option UnitPlan), s))
        ((DecisionEngine.decide engCfg stateTwo
          (fun _ _ (s : ℕ) => ((none : Option UnitPlan), s)) 0).2)).1
      = (DecisionEngine.decide engCfg stateTwo
          (fun _ _ (s : ℕ) => ((none : Option UnitPlan), s)) 0).1 :=
  engine_decide_deterministic engCfg stateTwo
    (fun _ _ s => (none, s)) (fun _ _ => none) (fun _ _ _ => rfl) 0

/-- Counterexample to C9 as stated: `RandomWalkStrategy` can be bound to a
unit, but it draws from the module-global `random` generator, which is not
part of the snapshot or the strategy-instance state; on a 3×3 board two
consecutive invocations with the same snapshot and instance state command
the unit to different cells. -/
theorem engine_decide_random_walk_nondet :
    (DecisionEngine.decide engCfg stateOne random_walk_decide [0, 1]).1
      ≠ (DecisionEngine.decide engCfg stateOne random_walk_decide
          ((DecisionEngine.decide engCfg stateOne random_walk_decide
            [0, 1]).2)).1 := by
  decide

end JingleBang
